import Mathlib

/-!
Verification of the A_Star_Visualization repository (Dijkstra routing core).

Shallow embedding conventions:
* Python vertex ids (strings in `dijistra2.py` / `iot_routing_dijkstra.py`,
  ints in `FindingPivots.py`) are modelled as natural numbers with their
  linear order (the order only influences heap tie-breaking, which the spec
  declares implementation-defined).
* Python floats are modelled as rationals; `math.inf` becomes the top
  element of `WithTop ℚ`.  The tolerance constant `1e-12` is modelled as
  the rational `1/10^12`.
* Python dicts `{id: [(neighbor, weight), ...]}` are modelled as
  association lists (`List (ℕ × List (ℕ × ℚ))`); `d.get(u, [])` is a total
  lookup defaulting to `[]`, and `u in d` is membership in the key list.
* Python sets become `Finset ℕ`; a raised exception becomes `Option`
  (`none` = the call raises instead of returning) or `Except PyError`.
-/

/-- Vertex identifier. -/
abbrev Vtx := ℕ

/-- Adjacency structure: an insertion-ordered dict from vertex to its
ordered neighbor/weight list. -/
abbrev Adjacency := List (Vtx × List (Vtx × ℚ))

/-- Dict access with default: Python `adj.get(u, [])`; on dict-shaped inputs
(unique keys) this also models `adj[u]` at keys. -/
def lookupAdj (adj : Adjacency) (u : Vtx) : List (Vtx × ℚ) :=
  (List.lookup u adj).getD []

/-- The key list of the dict: Python `list(adj)` / membership `u in adj`. -/
def adjKeys (adj : Adjacency) : List Vtx :=
  adj.map Prod.fst

/-- Error kinds surfaced by the graph builders, mirroring the Python
exception classes that the source raises. -/
inductive PyError where
  | valueError : PyError
  | keyError : PyError
deriving DecidableEq, Repr

namespace FindingPivots

/-!
Embedding of `src/Algorithm/Dijkstra/FindingPivots.py`.

`d_hat` is a Python dict read with unguarded `d_hat[v]` lookups, so it is
modelled as `Vtx → Option ℚ` and `find_pivots` returns `none` when the
Python call would raise `KeyError`.
-/

/-- The float-comparison tolerance `1e-12` of the tight-edge test. -/
def eps : ℚ := 1 / 1000000000000

/-- All `d_hat` lookups performed by one relaxation sweep over layer `L`
succeed: `d_hat[u]` and `d_hat[v]` are read for every edge `(u, v)` leaving
a vertex of `L` (and only for those). -/
def RelaxReads (edges : Adjacency) (dhat : Vtx → Option ℚ) (L : Finset Vtx) : Prop :=
  ∀ u ∈ L, ∀ p ∈ lookupAdj edges u, (dhat u).isSome ∧ (dhat p.1).isSome

instance (edges : Adjacency) (dhat : Vtx → Option ℚ) (L : Finset Vtx) :
    Decidable (RelaxReads edges dhat L) := by
  unfold RelaxReads; infer_instance

/-- One edge survives the relaxation filter: it does not worsen the current
estimate (`d_hat[u] + w <= d_hat[v]`) and stays strictly below the bound
(`d_hat[u] + w < B`). -/
def keeps (dhat : Vtx → Option ℚ) (B : ℚ) (u : Vtx) (p : Vtx × ℚ) : Bool :=
  match dhat u, dhat p.1 with
  | some du, some dv => decide (du + p.2 ≤ dv ∧ du + p.2 < B)
  | _, _ => false

/-- The next frontier layer `Wi` produced from layer `L`. -/
def nextLayer (edges : Adjacency) (dhat : Vtx → Option ℚ) (B : ℚ) (L : Finset Vtx) :
    Finset Vtx :=
  L.biUnion fun u => (((lookupAdj edges u).filter (keeps dhat B u)).map Prod.fst).toFinset

/-- The `for _ in range(1, k+1)` relaxation loop accumulating `W`, with the
early `break` on an empty layer; `none` models a `KeyError` escaping from
the sweep. -/
def relaxLoop (edges : Adjacency) (dhat : Vtx → Option ℚ) (B : ℚ) :
    ℕ → Finset Vtx → Finset Vtx → Option (Finset Vtx)
  | 0, W, _ => some W
  | i + 1, W, L =>
    if RelaxReads edges dhat L then
      if nextLayer edges dhat B L = ∅ then some (W ∪ nextLayer edges dhat B L)
      else
        relaxLoop edges dhat B i (W ∪ nextLayer edges dhat B L)
          (nextLayer edges dhat B L)
    else none

/-- Total variant of the relaxation loop (no lookup-error tracking); used to
phrase the domain of `d_hat` that the algorithm actually reads. -/
def relaxLoopT (edges : Adjacency) (dhat : Vtx → Option ℚ) (B : ℚ) :
    ℕ → Finset Vtx → Finset Vtx → Finset Vtx
  | 0, W, _ => W
  | i + 1, W, L =>
    if nextLayer edges dhat B L = ∅ then W ∪ nextLayer edges dhat B L
    else
      relaxLoopT edges dhat B i (W ∪ nextLayer edges dhat B L)
        (nextLayer edges dhat B L)

/-- The tight-edge test `abs(d_hat[u] + w_uv - d_hat[v]) < 1e-12`. -/
def tightB (dhat : Vtx → Option ℚ) (u : Vtx) (p : Vtx × ℚ) : Bool :=
  match dhat u, dhat p.1 with
  | some du, some dv => decide (|du + p.2 - dv| < eps)
  | _, _ => false

/-- All `d_hat` lookups of the forest-construction sweep succeed; thanks to
the short-circuit `v in W and abs(...)`, lookups happen only for edges whose
target lies in `W`. -/
def ForestReads (edges : Adjacency) (dhat : Vtx → Option ℚ) (W : Finset Vtx) : Prop :=
  ∀ u ∈ W, ∀ p ∈ lookupAdj edges u, p.1 ∈ W → (dhat u).isSome ∧ (dhat p.1).isSome

instance (edges : Adjacency) (dhat : Vtx → Option ℚ) (W : Finset Vtx) :
    Decidable (ForestReads edges dhat W) := by
  unfold ForestReads; infer_instance

/-- The ordered child list `children[u]` of the tight-edge forest: targets
`v in W` of tight edges out of `u`; empty for `u` outside `W` (the Python
dict only receives keys `u in W`). -/
def childrenOf (edges : Adjacency) (dhat : Vtx → Option ℚ) (W : Finset Vtx) (u : Vtx) :
    List Vtx :=
  if u ∈ W then
    (((lookupAdj edges u).filter fun p => decide (p.1 ∈ W) && tightB dhat u p).map Prod.fst)
  else []

/-- `indeg[v]`: how many tight forest edges point into `v`. -/
def indeg (edges : Adjacency) (dhat : Vtx → Option ℚ) (W : Finset Vtx) (v : Vtx) : ℕ :=
  ∑ u ∈ W, (childrenOf edges dhat W u).count v

/-- The forest roots: vertices of `W` with in-degree 0. -/
def roots (edges : Adjacency) (dhat : Vtx → Option ℚ) (W : Finset Vtx) : Finset Vtx :=
  W.filter fun u => indeg edges dhat W u = 0

/-- The `while stack` traversal of `subtree_size`, with the visited set and
the counter; Python pops from the end of the list and `extend`s children, so
the head of our stack list is the top. -/
def subtreeLoop (edges : Adjacency) (dhat : Vtx → Option ℚ) (W : Finset Vtx) :
    List Vtx → Finset Vtx → ℕ → ℕ
  | [], _, count => count
  | x :: stack, visited, count =>
    if x ∈ visited then subtreeLoop edges dhat W stack visited count
    else
      subtreeLoop edges dhat W ((childrenOf edges dhat W x).reverse ++ stack)
        (insert x visited) (count + 1)
termination_by stack visited _ =>
  (∑ y ∈ W.filter (fun y => y ∉ visited), (1 + (childrenOf edges dhat W y).length)) +
    stack.length
decreasing_by
  · simp only [List.length_cons]; omega
  · rename_i hvis
    by_cases hxW : x ∈ W
    · have hmem : x ∈ W.filter (fun y => y ∉ visited) := by
        simp [Finset.mem_filter, hxW, hvis]
      have hset : W.filter (fun y => y ∉ insert x visited) =
          (W.filter (fun y => y ∉ visited)).erase x := by
        ext y
        simp only [Finset.mem_filter, Finset.mem_erase, Finset.mem_insert]
        tauto
      have hsum := Finset.sum_erase_add (W.filter (fun y => y ∉ visited))
        (fun y => 1 + (childrenOf edges dhat W y).length) hmem
      simp only at hsum
      rw [hset]
      simp only [List.length_append, List.length_reverse, List.length_cons]
      omega
    · have hch : childrenOf edges dhat W x = [] := by
        simp [childrenOf, hxW]
      have hset : W.filter (fun y => y ∉ insert x visited) =
          W.filter (fun y => y ∉ visited) := by
        ext y
        simp only [Finset.mem_filter, Finset.mem_insert]
        constructor
        · rintro ⟨hy, hny⟩; exact ⟨hy, fun hv => hny (Or.inr hv)⟩
        · rintro ⟨hy, hny⟩
          refine ⟨hy, fun hv => ?_⟩
          rcases hv with rfl | hv
          · exact hxW hy
          · exact hny hv
      rw [hset, hch]
      simp only [List.length_append, List.length_reverse, List.length_nil,
        List.length_cons]
      omega

/-- `subtree_size(root)`: size of the forest-reachable subtree of `root`,
counted with a visited set and including `root` itself. -/
def subtree_size (edges : Adjacency) (dhat : Vtx → Option ℚ) (W : Finset Vtx)
    (root : Vtx) : ℕ :=
  subtreeLoop edges dhat W [root] ∅ 0

/-- `find_pivots(edges, d_hat, S, k, B)`; `none` models a `KeyError` raised
by an unguarded `d_hat[...]` lookup. -/
def find_pivots (edges : Adjacency) (dhat : Vtx → Option ℚ) (S : Finset Vtx)
    (k : ℕ) (B : ℚ) : Option (Finset Vtx × Finset Vtx) :=
  match relaxLoop edges dhat B k S S with
  | none => none
  | some W =>
    if k * max 1 S.card < W.card then some (S, W)
    else if ForestReads edges dhat W then
      some
        (S.filter fun u =>
          u ∈ roots edges dhat W ∧ k ≤ subtree_size edges dhat W u, W)
    else none

/-- Specification-side predicate for C2: the edge `p = (v, w)` out of `x`
is tight, i.e. both `d_hat` values exist and `|d_hat[x] + w - d_hat[v]|`
is below the `1e-12` tolerance. -/
def TightEdge (dhat : Vtx → Option ℚ) (x : Vtx) (p : Vtx × ℚ) : Prop :=
  ∃ dx dy, dhat x = some dx ∧ dhat p.1 = some dy ∧ |dx + p.2 - dy| < eps

/-- Specification-side predicate for C2: `v` is reachable from `u` along
child edges of the tight-edge forest. -/
def Reaches (edges : Adjacency) (dhat : Vtx → Option ℚ) (W : Finset Vtx)
    (u v : Vtx) : Prop :=
  Relation.ReflTransGen (fun a b => b ∈ childrenOf edges dhat W a) u v

end FindingPivots

namespace SP

/-!
Embedding of the `dijkstra` shortest-path engine.  The function body is
shared verbatim (modulo debug printing and the `debug` default) between
`src/Algorithm/Dijkstra/dijistra2.py` and
`src/Algorithm/Dijkstra/iot_routing_dijkstra.py`, so a single embedding
covers both.

The Python `while pq:` loop has no syntactic termination measure, so it is
modelled with explicit fuel: `none` means the fuel ran out mid-loop, and
every theorem about results is stated for executions that complete.  The
`dist`/`prev` dicts (keyed by exactly the graph's vertices) are modelled as
total functions; this is observationally faithful whenever every neighbor
mentioned in an adjacency list is itself a key of the graph, which the
theorems assume (`closed` hypotheses) and which `build_graph` guarantees.
-/

/-- The mutable state of the Dijkstra loop. -/
structure St where
  dist : Vtx → WithTop ℚ
  prev : Vtx → Option Vtx
  pq : List (ℚ × Vtx)

/-- Lexicographic minimum of two heap entries, mirroring Python tuple
comparison on `(distance, vertex)`. -/
def lexMin2 (a b : ℚ × Vtx) : ℚ × Vtx :=
  if b.1 < a.1 ∨ (b.1 = a.1 ∧ b.2 < a.2) then b else a

/-- The minimum entry of the heap contents (what `heapq.heappop` returns). -/
def pqMin : List (ℚ × Vtx) → Option (ℚ × Vtx)
  | [] => none
  | e :: es => some (es.foldl lexMin2 e)

/-- `heapq.heappop`: extract the minimum entry, leaving the rest.  Only the
multiset of entries and the popped minimum are observable, so the heap is
modelled by its content list. -/
def heapPop (pq : List (ℚ × Vtx)) : Option ((ℚ × Vtx) × List (ℚ × Vtx)) :=
  match pqMin pq with
  | none => none
  | some m => some (m, pq.erase m)

/-- One relaxation step `relax u->v` for a neighbor entry `e = (v, w)`:
skip banned `v`; if `nd = d + w` improves `dist[v]`, update `dist`, `prev`
and push `(nd, v)`. -/
def relaxEdge (banned : List Vtx) (u : Vtx) (d : ℚ) (s : St) (e : Vtx × ℚ) : St :=
  if e.1 ∈ banned then s
  else if ((d + e.2 : ℚ) : WithTop ℚ) < s.dist e.1 then
    { dist := Function.update s.dist e.1 ((d + e.2 : ℚ) : WithTop ℚ)
      prev := Function.update s.prev e.1 (some u)
      pq := (d + e.2, e.1) :: s.pq }
  else s

/-- The `for v, w in adj[u]` loop body of one popped vertex. -/
def relaxAll (adj : Adjacency) (banned : List Vtx) (u : Vtx) (d : ℚ) (s : St) : St :=
  (lookupAdj adj u).foldl (relaxEdge banned u d) s

/-- The main `while pq:` loop: pop the minimum; skip stale or banned
entries; stop at the goal; otherwise relax the outgoing edges. -/
def loop (adj : Adjacency) (banned : List Vtx) (goal : Vtx) :
    ℕ → St → Option St
  | 0, _ => none
  | fuel + 1, s =>
    match heapPop s.pq with
    | none => some s
    | some ((d, u), pq1) =>
      if (d : WithTop ℚ) ≠ s.dist u ∨ u ∈ banned then
        loop adj banned goal fuel { s with pq := pq1 }
      else if u = goal then some { s with pq := pq1 }
      else loop adj banned goal fuel (relaxAll adj banned u d { s with pq := pq1 })

/-- The `while cur is not None` predecessor walk, building the list
goal-first (before Python reverses it); fueled because its termination
is an invariant of the loop, not of the syntax. -/
def chainTo (prev : Vtx → Option Vtx) : ℕ → Vtx → Option (List Vtx)
  | 0, _ => none
  | n + 1, cur =>
    match prev cur with
    | none => some [cur]
    | some p => (chainTo prev n p).map (cur :: ·)

/-- `dijkstra(adj, start, goal, banned)`: returns `(cost, path)` with
`⊤` as `math.inf`; `none` only when the fuel is exhausted. -/
def dijkstra (adj : Adjacency) (start goal : Vtx) (banned : List Vtx)
    (fuel : ℕ) : Option (WithTop ℚ × List Vtx) :=
  if start ∈ banned ∨ goal ∈ banned then some (⊤, [])
  else if start ∉ adjKeys adj ∨ goal ∉ adjKeys adj then some (⊤, [])
  else
    match loop adj banned goal fuel
        { dist := fun v => if v = start then ((0 : ℚ) : WithTop ℚ) else ⊤
          prev := fun _ => none
          pq := [(0, start)] } with
    | none => none
    | some s =>
      if s.dist goal = ⊤ then some (⊤, [])
      else
        match chainTo s.prev (fuel + 1) goal with
        | none => none
        | some c => some (s.dist goal, c.reverse)

/-- Specification-side predicate for C1: the vertex sequence is a path in
the graph (every consecutive pair is an adjacency entry) and the recorded
edge weights sum to the given cost; a single vertex costs 0 and the empty
sequence is not a path. -/
def PathCost (adj : Adjacency) : List Vtx → ℚ → Prop
  | [], _ => False
  | [_], c => c = 0
  | u :: v :: rest, c =>
    ∃ w c2, (v, w) ∈ lookupAdj adj u ∧ PathCost adj (v :: rest) c2 ∧ c = w + c2

/-- The same path/cost predicate read along the goal-first predecessor
chain (the list before Python reverses it): an entry `v` followed by `u`
means `prev[v] = u`, i.e. an edge `u -> v`. -/
def RevPathCost (adj : Adjacency) : List Vtx → ℚ → Prop
  | [], _ => False
  | [_], c => c = 0
  | v :: u :: rest, c =>
    ∃ w c2, (v, w) ∈ lookupAdj adj u ∧ RevPathCost adj (u :: rest) c2 ∧ c = c2 + w

/-- In the ghost settle-order list (most recently settled first), `u` was
settled strictly earlier than `v`. -/
def SettledBefore (σ : List Vtx) (u v : Vtx) : Prop :=
  ∃ l1 l2, σ = l1 ++ v :: l2 ∧ u ∈ l2

/-- The Dijkstra loop invariant, relating the state to a ghost list `σ` of
settled vertices (most recently settled first).  With nonnegative weights
it is preserved by every iteration and yields the cost/path claim. -/
structure Inv (adj : Adjacency) (banned : List Vtx) (start : Vtx) (s : St)
    (σ : List Vtx) : Prop where
  dist_start : s.dist start = ((0 : ℚ) : WithTop ℚ)
  prev_none : ∀ v, s.prev v = none → s.dist v ≠ ⊤ → v = start
  pq_nonneg : ∀ e ∈ s.pq, 0 ≤ e.1
  dist_nonneg : ∀ v, 0 ≤ s.dist v
  prev_edge : ∀ v u, s.prev v = some u → u ∈ σ ∧
    ∃ w du : ℚ, (v, w) ∈ lookupAdj adj u ∧
      s.dist u = ((du : ℚ) : WithTop ℚ) ∧
      s.dist v = ((du + w : ℚ) : WithTop ℚ)
  settled_le : ∀ v ∈ σ, ∃ dv : ℚ, s.dist v = ((dv : ℚ) : WithTop ℚ) ∧
    ∀ e ∈ s.pq, dv ≤ e.1
  prev_order : ∀ v u, s.prev v = some u → v ∈ σ → SettledBefore σ u v
  nodup : σ.Nodup

end SP

namespace Build

/-!
Shared machinery for the two `build_graph` functions.  Both coverage modes
iterate over ordered index pairs `i < j` and append at most one entry per
pair to each endpoint's neighbor list, so a neighbor list equals the
in-order concatenation of the per-pair contributions.  The geometry
(`euclid`, producing irrational square roots) is out of the embedding's
scope per the spec; it is a pluggable rational-valued parameter.
-/

/-- The ordered pairs visited by `for i in range(n): for j in range(i+1, n)`. -/
def pairs {α : Type} : List α → List (α × α)
  | [] => []
  | a :: rest => rest.map (fun b => (a, b)) ++ pairs rest

/-- Neighbor list of the vertex `i` in a symmetric coverage mode: the pair
`(a, b)` contributes the reciprocal edges `(b.id, w)` / `(a.id, w)` when
`cond a b` holds, with the direction-averaged weight `w = wt a b`. -/
def symNeighbors {α : Type} (nodeId : α → Vtx) (cond : α → α → Bool)
    (wt : α → α → ℚ) (l : List α) (i : Vtx) : List (Vtx × ℚ) :=
  (pairs l).filterMap fun ab =>
    if cond ab.1 ab.2 then
      if nodeId ab.1 = i then some (nodeId ab.2, wt ab.1 ab.2)
      else if nodeId ab.2 = i then some (nodeId ab.1, wt ab.1 ab.2)
      else none
    else none

/-- Neighbor list of the vertex `i` in the directed coverage mode
(`'either'`): the pair `(a, b)` contributes `a -> b` when `b` lies in the
range of `a`, and `b -> a` when `a` lies in the range of `b`. -/
def eitherNeighbors {α : Type} (nodeId : α → Vtx) (inrange : α → α → Bool)
    (wt : α → α → ℚ) (l : List α) (i : Vtx) : List (Vtx × ℚ) :=
  (pairs l).filterMap fun ab =>
    if nodeId ab.1 = i then
      if inrange ab.1 ab.2 then some (nodeId ab.2, wt ab.1 ab.2) else none
    else if nodeId ab.2 = i then
      if inrange ab.2 ab.1 then some (nodeId ab.1, wt ab.2 ab.1) else none
    else none

end Build

namespace Iot

/-! Embedding of `build_graph` from `src/Algorithm/Dijkstra/iot_routing_dijkstra.py`
(modes `'both'` and `'either'`; the unrecognized-mode `raise` sits inside
the pair loop, so it fires only when at least one pair is visited). -/

/-- An IoT node: identity, position, mandatory coverage radius. -/
structure Node where
  id : Vtx
  x : ℚ
  y : ℚ
  r : ℚ
deriving DecidableEq

/-- `in_range(src, dst)`: `dst` lies within the coverage radius of `src`. -/
def in_range (euclid : Node → Node → ℚ) (src dst : Node) : Bool :=
  decide (euclid src dst ≤ src.r)

/-- `build_graph(nodes, mode, weight_fn)`; adjacency keys follow the node
order, neighbor lists follow the pair-iteration order. -/
def build_graph (euclid wfn : Node → Node → ℚ) (nodes : List Node)
    (mode : String) : Except PyError Adjacency :=
  if mode = "both" then
    .ok (nodes.map fun n =>
      (n.id,
        Build.symNeighbors Node.id
          (fun a b => decide (euclid a b ≤ min a.r b.r))
          (fun a b => ((1 : ℚ) / 2) * (wfn a b + wfn b a)) nodes n.id))
  else if mode = "either" then
    .ok (nodes.map fun n =>
      (n.id, Build.eitherNeighbors Node.id (in_range euclid) wfn nodes n.id))
  else if Build.pairs nodes = [] then .ok (nodes.map fun n => (n.id, []))
  else .error .valueError

end Iot

namespace D2

/-! Embedding of `build_graph` from `src/Algorithm/Dijkstra/dijistra2.py`
(modes `'range'` and `'paths'`; the unrecognized-mode `raise` is the
top-level `else`, so it fires on every bad-mode call). -/

/-- A node with an optional coverage radius (`r=None` allowed). -/
structure Node where
  id : Vtx
  x : ℚ
  y : ℚ
  r : Option ℚ
deriving DecidableEq

/-- An explicit path record: directed edge with a length. -/
structure Path where
  id : Vtx
  start_id : Vtx
  end_id : Vtx
  length : ℚ
deriving DecidableEq

/-- `n.r is not None and d <= n.r`. -/
def radiusOk (n : Node) (d : ℚ) : Bool :=
  match n.r with
  | some r => decide (d ≤ r)
  | none => false

/-- Neighbor list of vertex `i` in `'paths'` mode: each record appends its
forward edge, plus the mirrored edge when `undirected`. -/
def pathNeighbors (ps : List Path) (undirected : Bool) (i : Vtx) :
    List (Vtx × ℚ) :=
  ps.flatMap fun p =>
    (if p.start_id = i then [(p.end_id, p.length)] else []) ++
      (if undirected = true ∧ p.end_id = i then [(p.start_id, p.length)] else [])

/-- `build_graph(nodes, mode, paths, undirected, weight_fn)`. -/
def build_graph (euclid wfn : Node → Node → ℚ) (nodes : List Node)
    (mode : String) (paths : Option (List Path)) (undirected : Bool) :
    Except PyError Adjacency :=
  if mode = "paths" then
    match paths with
    | none => .error .valueError
    | some ps =>
      if ps.all fun p =>
          decide (p.start_id ∈ nodes.map Node.id) &&
            decide (p.end_id ∈ nodes.map Node.id) then
        .ok (nodes.map fun n => (n.id, pathNeighbors ps undirected n.id))
      else .error .keyError
  else if mode = "range" then
    .ok (nodes.map fun n =>
      (n.id,
        Build.symNeighbors Node.id
          (fun a b => radiusOk a (euclid a b) && radiusOk b (euclid a b))
          (fun a b => ((1 : ℚ) / 2) * (wfn a b + wfn b a)) nodes n.id))
  else .error .valueError

end D2

/-! ### Basic lookup lemmas -/

theorem lookupAdj_nil (u : Vtx) : lookupAdj [] u = [] := rfl

theorem mem_of_lookup_eq_some {α β : Type} [BEq α] [LawfulBEq α] {u : α}
    {l : List (α × β)} {b : β} (h : List.lookup u l = some b) : (u, b) ∈ l := by
  induction l with
  | nil => simp [List.lookup] at h
  | cons hd tl ih =>
    obtain ⟨k, v⟩ := hd
    simp only [List.lookup] at h
    split at h
    · next heq =>
      obtain rfl : u = k := by simpa using heq
      obtain rfl : v = b := by simpa using h
      exact List.mem_cons_self _ _
    · exact List.mem_cons_of_mem _ (ih h)

theorem lookupAdj_mem_of_ne_nil {adj : Adjacency} {u : Vtx}
    (h : lookupAdj adj u ≠ []) : (u, lookupAdj adj u) ∈ adj := by
  unfold lookupAdj at *
  cases hl : List.lookup u adj with
  | none => rw [hl] at h; simp at h
  | some l => simpa using mem_of_lookup_eq_some hl

/-! ### Lemmas about the pivot finder -/

namespace FindingPivots

theorem relaxLoop_superset (edges : Adjacency) (dhat : Vtx → Option ℚ) (B : ℚ) :
    ∀ (k : ℕ) (W L W2 : Finset Vtx),
      relaxLoop edges dhat B k W L = some W2 → W ⊆ W2 := by
  intro k
  induction k with
  | zero =>
    intro W L W2 h
    obtain rfl : W = W2 := by simpa [relaxLoop] using h
    exact subset_rfl
  | succ i ih =>
    intro W L W2 h
    simp only [relaxLoop] at h
    split at h
    · split at h
      · obtain rfl : W ∪ nextLayer edges dhat B L = W2 := by simpa using h
        exact Finset.subset_union_left
      · exact Finset.subset_union_left.trans (ih _ _ _ h)
    · cases h

theorem relaxLoopT_superset (edges : Adjacency) (dhat : Vtx → Option ℚ) (B : ℚ) :
    ∀ (k : ℕ) (W L : Finset Vtx), W ⊆ relaxLoopT edges dhat B k W L := by
  intro k
  induction k with
  | zero => intro W L; simp [relaxLoopT]
  | succ i ih =>
    intro W L
    simp only [relaxLoopT]
    split
    · exact Finset.subset_union_left
    · exact Finset.subset_union_left.trans (ih _ _)

theorem relaxLoop_eq_total (edges : Adjacency) (dhat : Vtx → Option ℚ) (B : ℚ) :
    ∀ (k : ℕ) (W L : Finset Vtx), L ⊆ W →
      (∀ u ∈ relaxLoopT edges dhat B k W L, ∀ p ∈ lookupAdj edges u,
        (dhat u).isSome ∧ (dhat p.1).isSome) →
      relaxLoop edges dhat B k W L = some (relaxLoopT edges dhat B k W L) := by
  intro k
  induction k with
  | zero => intro W L _ _; simp [relaxLoop, relaxLoopT]
  | succ i ih =>
    intro W L hLW hreads
    have hWT : W ⊆ relaxLoopT edges dhat B (i + 1) W L :=
      relaxLoopT_superset edges dhat B _ W L
    have hRR : RelaxReads edges dhat L := fun u hu => hreads u (hWT (hLW hu))
    simp only [relaxLoop, relaxLoopT] at hreads ⊢
    rw [if_pos hRR]
    by_cases hni : nextLayer edges dhat B L = ∅
    · rw [if_pos hni, if_pos hni]
    · rw [if_neg hni, if_neg hni]
      rw [if_neg hni] at hreads
      exact ih _ _ Finset.subset_union_right hreads

theorem find_pivots_eq_none (edges : Adjacency) (dhat : Vtx → Option ℚ)
    (S : Finset Vtx) (k : ℕ) (B : ℚ)
    (hrl : relaxLoop edges dhat B k S S = none) :
    find_pivots edges dhat S k B = none := by
  unfold find_pivots
  rw [hrl]

theorem find_pivots_eq_some (edges : Adjacency) (dhat : Vtx → Option ℚ)
    (S : Finset Vtx) (k : ℕ) (B : ℚ) (W : Finset Vtx)
    (hrl : relaxLoop edges dhat B k S S = some W) :
    find_pivots edges dhat S k B =
      if k * max 1 S.card < W.card then some (S, W)
      else if ForestReads edges dhat W then
        some
          (S.filter fun u =>
            u ∈ roots edges dhat W ∧ k ≤ subtree_size edges dhat W u, W)
      else none := by
  unfold find_pivots
  rw [hrl]

theorem childrenOf_subset (edges : Adjacency) (dhat : Vtx → Option ℚ)
    (W : Finset Vtx) (u : Vtx) : ∀ v ∈ childrenOf edges dhat W u, v ∈ W := by
  intro v hv
  unfold childrenOf at hv
  split at hv
  · simp only [List.mem_map] at hv
    obtain ⟨p, hp, rfl⟩ := hv
    have hcond := (List.mem_filter.mp hp).2
    simp only [Bool.and_eq_true, decide_eq_true_eq] at hcond
    exact hcond.1
  · cases hv

theorem mem_childrenOf (edges : Adjacency) (dhat : Vtx → Option ℚ)
    (W : Finset Vtx) (u v : Vtx) :
    v ∈ childrenOf edges dhat W u ↔
      u ∈ W ∧ ∃ p ∈ lookupAdj edges u, p.1 = v ∧ v ∈ W ∧ tightB dhat u p = true := by
  unfold childrenOf
  split
  · next hu =>
    simp only [List.mem_map, List.mem_filter, Bool.and_eq_true, decide_eq_true_eq]
    constructor
    · rintro ⟨p, ⟨hp, hpW, ht⟩, rfl⟩
      exact ⟨hu, p, hp, rfl, hpW, ht⟩
    · rintro ⟨-, p, hp, rfl, hpW, ht⟩
      exact ⟨p, ⟨hp, hpW, ht⟩, rfl⟩
  · next hu => simp [hu]

theorem tightB_iff_tightEdge (dhat : Vtx → Option ℚ) (u : Vtx) (p : Vtx × ℚ) :
    tightB dhat u p = true ↔ TightEdge dhat u p := by
  unfold tightB TightEdge
  cases hdu : dhat u <;> cases hdv : dhat p.1 <;> simp

theorem indeg_eq_zero_iff (edges : Adjacency) (dhat : Vtx → Option ℚ)
    (W : Finset Vtx) (u : Vtx) (hu : u ∈ W) :
    indeg edges dhat W u = 0 ↔
      ∀ x ∈ W, ∀ p ∈ lookupAdj edges x, p.1 = u → ¬ TightEdge dhat x p := by
  unfold indeg
  rw [Finset.sum_eq_zero_iff]
  constructor
  · intro h x hx p hp hpu ht
    have hcount := h x hx
    rw [List.count_eq_zero] at hcount
    apply hcount
    rw [mem_childrenOf]
    exact ⟨hx, p, hp, hpu, hu, (tightB_iff_tightEdge _ _ _).mpr ht⟩
  · intro h x hx
    rw [List.count_eq_zero]
    intro hmem
    rw [mem_childrenOf] at hmem
    obtain ⟨hxW, p, hp, hpv, hvW, ht⟩ := hmem
    exact h x hx p hp hpv ((tightB_iff_tightEdge _ _ _).mp ht)

theorem reaches_elem (edges : Adjacency) (dhat : Vtx → Option ℚ)
    (W : Finset Vtx) {s v : Vtx} (h : Reaches edges dhat W s v) :
    v = s ∨ v ∈ W := by
  induction h with
  | refl => exact Or.inl rfl
  | tail _ hstep _ => exact Or.inr (childrenOf_subset _ _ _ _ _ hstep)

theorem reaches_through_visited (edges : Adjacency) (dhat : Vtx → Option ℚ)
    (W : Finset Vtx) {visited : Finset Vtx} {stack : List Vtx}
    (Hcl : ∀ y ∈ visited, ∀ c ∈ childrenOf edges dhat W y,
      c ∈ visited ∨ c ∈ stack)
    {s v : Vtx} (hs : s ∈ visited) (h : Reaches edges dhat W s v) :
    v ∈ visited ∨ ∃ t ∈ stack, Reaches edges dhat W t v := by
  revert hs
  induction h using Relation.ReflTransGen.head_induction_on with
  | refl => intro hv; exact Or.inl hv
  | head hstep hrtg ih =>
    intro ha
    rcases Hcl _ ha _ hstep with hc | hc
    · exact ih hc
    · exact Or.inr ⟨_, hc, hrtg⟩

theorem reachSet_finite (edges : Adjacency) (dhat : Vtx → Option ℚ)
    (W : Finset Vtx) (stack : List Vtx) (visited : Finset Vtx) :
    {v | v ∉ visited ∧ ∃ s ∈ stack, Reaches edges dhat W s v}.Finite := by
  apply Set.Finite.subset (W.finite_toSet.union stack.toFinset.finite_toSet)
  rintro v ⟨-, s, hs, hr⟩
  rcases reaches_elem edges dhat W hr with rfl | hvW
  · exact Or.inr (by simpa using hs)
  · exact Or.inl hvW

theorem subtreeLoop_eq_ncard (edges : Adjacency) (dhat : Vtx → Option ℚ)
    (W : Finset Vtx) :
    ∀ (stack : List Vtx) (visited : Finset Vtx) (count : ℕ),
      (∀ y ∈ visited, ∀ c ∈ childrenOf edges dhat W y,
        c ∈ visited ∨ c ∈ stack) →
      subtreeLoop edges dhat W stack visited count =
        count +
          Set.ncard {v | v ∉ visited ∧ ∃ s ∈ stack, Reaches edges dhat W s v} := by
  intro stack visited count
  induction stack, visited, count using subtreeLoop.induct edges dhat W with
  | case1 visited count =>
    intro _
    have hempty : {v | v ∉ visited ∧ ∃ s ∈ ([] : List Vtx),
        Reaches edges dhat W s v} = ∅ := by
      ext v; simp
    simp [subtreeLoop, hempty]
  | case2 x stack visited count hx ih =>
    intro Hcl
    have Hcl2 : ∀ y ∈ visited, ∀ c ∈ childrenOf edges dhat W y,
        c ∈ visited ∨ c ∈ stack := by
      intro y hy c hc
      rcases Hcl y hy c hc with h | h
      · exact Or.inl h
      · rcases List.mem_cons.mp h with rfl | h
        · exact Or.inl hx
        · exact Or.inr h
    have hsets : {v | v ∉ visited ∧ ∃ s ∈ x :: stack, Reaches edges dhat W s v} =
        {v | v ∉ visited ∧ ∃ s ∈ stack, Reaches edges dhat W s v} := by
      ext v
      simp only [Set.mem_setOf_eq, List.mem_cons]
      constructor
      · rintro ⟨hv, s, rfl | hsmem, hr⟩
        · rcases reaches_through_visited edges dhat W Hcl2 hx hr with hvv | ⟨t, ht, hrt⟩
          · exact absurd hvv hv
          · exact ⟨hv, t, ht, hrt⟩
        · exact ⟨hv, s, hsmem, hr⟩
      · rintro ⟨hv, s, hsmem, hr⟩
        exact ⟨hv, s, Or.inr hsmem, hr⟩
    rw [subtreeLoop, if_pos hx, ih Hcl2, hsets]
  | case3 x stack visited count hx ih =>
    intro Hcl
    have Hcl3 : ∀ y ∈ insert x visited, ∀ c ∈ childrenOf edges dhat W y,
        c ∈ insert x visited ∨ c ∈ (childrenOf edges dhat W x).reverse ++ stack := by
      intro y hy c hc
      rcases Finset.mem_insert.mp hy with rfl | hy
      · exact Or.inr (by simp [hc])
      · rcases Hcl y hy c hc with h | h
        · exact Or.inl (Finset.mem_insert_of_mem h)
        · rcases List.mem_cons.mp h with rfl | h
          · exact Or.inl (Finset.mem_insert_self _ _)
          · exact Or.inr (by simp [h])
    have hTnew : {v | v ∉ insert x visited ∧
          ∃ s ∈ (childrenOf edges dhat W x).reverse ++ stack,
            Reaches edges dhat W s v} =
        {v | v ∉ visited ∧ ∃ s ∈ x :: stack, Reaches edges dhat W s v} \ {x} := by
      ext v
      simp only [Set.mem_setOf_eq, Set.mem_diff, Set.mem_singleton_iff,
        List.mem_cons, List.mem_append, List.mem_reverse, Finset.mem_insert,
        not_or]
      constructor
      · rintro ⟨⟨hvx, hv⟩, s, hch | hsmem, hr⟩
        · exact ⟨⟨hv, x, Or.inl rfl, Relation.ReflTransGen.head hch hr⟩, hvx⟩
        · exact ⟨⟨hv, s, Or.inr hsmem, hr⟩, hvx⟩
      · rintro ⟨⟨hv, s, rfl | hsmem, hr⟩, hvx⟩
        · rcases (Relation.ReflTransGen.cases_head hr) with rfl | ⟨c, hc, hcr⟩
          · exact absurd rfl hvx
          · exact ⟨⟨hvx, hv⟩, c, Or.inl hc, hcr⟩
        · exact ⟨⟨hvx, hv⟩, s, Or.inr hsmem, hr⟩
    have hxT : x ∈ {v | v ∉ visited ∧ ∃ s ∈ x :: stack, Reaches edges dhat W s v} :=
      ⟨hx, x, List.mem_cons_self _ _, Relation.ReflTransGen.refl⟩
    have hfin := reachSet_finite edges dhat W (x :: stack) visited
    have hcount := Set.ncard_diff_singleton_add_one hxT hfin
    rw [subtreeLoop, if_neg hx, ih Hcl3, hTnew]
    omega

theorem subtree_size_eq_ncard (edges : Adjacency) (dhat : Vtx → Option ℚ)
    (W : Finset Vtx) (root : Vtx) :
    subtree_size edges dhat W root =
      Set.ncard {v | Reaches edges dhat W root v} := by
  unfold subtree_size
  rw [subtreeLoop_eq_ncard edges dhat W [root] ∅ 0 (by simp)]
  have hsets : {v | v ∉ (∅ : Finset Vtx) ∧ ∃ s ∈ [root], Reaches edges dhat W s v} =
      {v | Reaches edges dhat W root v} := by
    ext v; simp
  rw [hsets]
  omega

end FindingPivots

/-! ### Lemmas about the graph builders -/

namespace Build

theorem mem_pairs {α : Type} : ∀ {l : List α} {a b : α},
    (a, b) ∈ pairs l → a ∈ l ∧ b ∈ l := by
  intro l
  induction l with
  | nil => intro a b h; cases h
  | cons x rest ih =>
    intro a b h
    rcases List.mem_append.mp h with h | h
    · obtain ⟨c, hc, heq⟩ := List.mem_map.mp h
      obtain ⟨rfl, rfl⟩ : x = a ∧ c = b := by simpa [Prod.ext_iff] using heq
      exact ⟨List.mem_cons_self _ _, List.mem_cons_of_mem _ hc⟩
    · have hab := ih h
      exact ⟨List.mem_cons_of_mem _ hab.1, List.mem_cons_of_mem _ hab.2⟩

theorem pairs_or_of_mem {α : Type} : ∀ {l : List α} {a b : α},
    a ∈ l → b ∈ l → a ≠ b → (a, b) ∈ pairs l ∨ (b, a) ∈ pairs l := by
  intro l
  induction l with
  | nil => intro a b ha _ _; cases ha
  | cons x rest ih =>
    intro a b ha hb hne
    rcases List.mem_cons.mp ha with ha1 | ha1
    · subst ha1
      have hbr : b ∈ rest := by
        rcases List.mem_cons.mp hb with hb1 | hb1
        · exact absurd hb1.symm hne
        · exact hb1
      exact Or.inl (List.mem_append_left _ (List.mem_map_of_mem _ hbr))
    · rcases List.mem_cons.mp hb with hb1 | hb1
      · subst hb1
        exact Or.inr (List.mem_append_left _ (List.mem_map_of_mem _ ha1))
      · rcases ih ha1 hb1 hne with h | h
        · exact Or.inl (List.mem_append_right _ h)
        · exact Or.inr (List.mem_append_right _ h)

theorem pairs_id_ne {α : Type} (nodeId : α → Vtx) :
    ∀ {l : List α}, (l.map nodeId).Nodup →
      ∀ {a b : α}, (a, b) ∈ pairs l → nodeId a ≠ nodeId b := by
  intro l
  induction l with
  | nil => intro _ a b h; cases h
  | cons x rest ih =>
    intro hnd a b h
    simp only [List.map_cons, List.nodup_cons] at hnd
    rcases List.mem_append.mp h with h | h
    · obtain ⟨c, hc, heq⟩ := List.mem_map.mp h
      obtain ⟨rfl, rfl⟩ : x = a ∧ c = b := by simpa [Prod.ext_iff] using heq
      intro hcontra
      exact hnd.1 (hcontra ▸ List.mem_map_of_mem nodeId hc)
    · exact ih hnd.2 h

theorem pairs_eq_nil_iff {α : Type} :
    ∀ {l : List α}, pairs l = [] ↔ l.length ≤ 1 := by
  intro l
  induction l with
  | nil => simp [pairs]
  | cons x rest ih =>
    cases rest with
    | nil => simp [pairs]
    | cons y rest2 => simp [pairs]

theorem lookup_map_adj {α : Type} (nodeId : α → Vtx)
    (f : Vtx → List (Vtx × ℚ)) :
    ∀ (l : List α) {u : Vtx}, u ∈ l.map nodeId →
      lookupAdj (l.map fun n => (nodeId n, f (nodeId n))) u = f u := by
  intro l
  induction l with
  | nil => intro u hu; cases hu
  | cons x rest ih =>
    intro u hu
    by_cases hx : u = nodeId x
    · subst hx
      simp [lookupAdj, List.lookup]
    · have hur : u ∈ rest.map nodeId := by
        rcases List.mem_map.mp hu with ⟨c, hc, rfl⟩
        rcases List.mem_cons.mp hc with rfl | hc
        · exact absurd rfl hx
        · exact List.mem_map_of_mem _ hc
      have hne : (u == nodeId x) = false := by
        simpa using hx
      simpa [lookupAdj, List.lookup, hne] using ih hur

theorem mem_symNeighbors {α : Type} (nodeId : α → Vtx) (cond : α → α → Bool)
    (wt : α → α → ℚ) (l : List α) (hnd : (l.map nodeId).Nodup)
    (hc : ∀ x y, cond x y = cond y x) (hw : ∀ x y, wt x y = wt y x)
    {a b : α} (ha : a ∈ l) (hb : b ∈ l) (hne : nodeId a ≠ nodeId b) (w : ℚ) :
    (nodeId b, w) ∈ symNeighbors nodeId cond wt l (nodeId a) ↔
      cond a b = true ∧ w = wt a b := by
  have hinj : ∀ x ∈ l, ∀ y ∈ l, nodeId x = nodeId y → x = y :=
    List.inj_on_of_nodup_map hnd
  unfold symNeighbors
  rw [List.mem_filterMap]
  constructor
  · rintro ⟨⟨p, q⟩, hpq, hres⟩
    have hpql := mem_pairs hpq
    have hpqne := pairs_id_ne nodeId hnd hpq
    simp only at hres
    split at hres
    · next hcond =>
      split at hres
      · next hpa =>
        obtain ⟨hqb, hwpq⟩ : nodeId q = nodeId b ∧ wt p q = w := by
          simpa [Prod.ext_iff] using hres
        have hpa2 : p = a := hinj p hpql.1 a ha hpa
        have hqb2 : q = b := hinj q hpql.2 b hb hqb
        constructor
        · rw [← hpa2, ← hqb2]; exact hcond
        · rw [← hpa2, ← hqb2]; exact hwpq.symm
      · split at hres
        · next hqa =>
          obtain ⟨hpb, hwpq⟩ : nodeId p = nodeId b ∧ wt p q = w := by
            simpa [Prod.ext_iff] using hres
          have hqa2 : q = a := hinj q hpql.2 a ha hqa
          have hpb2 : p = b := hinj p hpql.1 b hb hpb
          constructor
          · rw [hc a b, ← hpb2, ← hqa2]; exact hcond
          · rw [hw a b, ← hpb2, ← hqa2]; exact hwpq.symm
        · cases hres
    · cases hres
  · rintro ⟨hcond, rfl⟩
    rcases pairs_or_of_mem ha hb (fun hab => hne (hab ▸ rfl)) with hp | hp
    · refine ⟨(a, b), hp, ?_⟩
      simp [hcond]
    · refine ⟨(b, a), hp, ?_⟩
      have hcond2 : cond b a = true := (hc a b) ▸ hcond
      simp [hcond2, if_neg hne.symm, hw a b]

theorem symNeighbors_eq_nil {α : Type} (nodeId : α → Vtx) (cond : α → α → Bool)
    (wt : α → α → ℚ) (l : List α) (i : Vtx)
    (h : ∀ a b, (a, b) ∈ pairs l → cond a b = false) :
    symNeighbors nodeId cond wt l i = [] := by
  unfold symNeighbors
  rw [List.filterMap_eq_nil_iff]
  rintro ⟨p, q⟩ hpq
  simp [h p q hpq]

theorem eitherNeighbors_eq_nil {α : Type} (nodeId : α → Vtx)
    (inrange : α → α → Bool) (wt : α → α → ℚ) (l : List α) (i : Vtx)
    (h : ∀ a b, (a, b) ∈ pairs l → inrange a b = false ∧ inrange b a = false) :
    eitherNeighbors nodeId inrange wt l i = [] := by
  unfold eitherNeighbors
  rw [List.filterMap_eq_nil_iff]
  rintro ⟨p, q⟩ hpq
  have hpq2 := h p q hpq
  simp only
  split
  · simp [hpq2.1]
  · split
    · simp [hpq2.2]
    · rfl

end Build

/-- C2: when `find_pivots` returns `(P, W)` without the fast path
(`|W| <= k * max(1, |S|)`), `P` is exactly the set of vertices `u` of `S`
that have in-degree 0 in the tight-edge forest restricted to `W` (no edge
`x -> u` with `x, u` in `W` whose defect is below the `1e-12` tolerance)
and whose forest-reachable subtree, counting the reachable vertices
including `u` itself (which is what the visited-set traversal computes),
has at least `k` vertices. -/
theorem find_pivots_pivot_characterization (edges : Adjacency)
    (dhat : Vtx → Option ℚ) (S : Finset Vtx) (k : ℕ) (B : ℚ) (P W : Finset Vtx)
    (h : FindingPivots.find_pivots edges dhat S k B = some (P, W))
    (hsmall : W.card ≤ k * max 1 S.card) :
    ∀ u, u ∈ P ↔
      u ∈ S ∧
        (∀ x ∈ W, ∀ p ∈ lookupAdj edges x, p.1 = u →
          ¬ FindingPivots.TightEdge dhat x p) ∧
        k ≤ Set.ncard {v | FindingPivots.Reaches edges dhat W u v} := by
  cases hrl : FindingPivots.relaxLoop edges dhat B k S S with
  | none => rw [FindingPivots.find_pivots_eq_none edges dhat S k B hrl] at h; cases h
  | some W0 =>
    rw [FindingPivots.find_pivots_eq_some edges dhat S k B W0 hrl] at h
    have hSW0 : S ⊆ W0 := FindingPivots.relaxLoop_superset _ _ _ _ _ _ _ hrl
    split_ifs at h with h1 h2
    · simp only [Option.some.injEq, Prod.mk.injEq] at h
      obtain ⟨rfl, rfl⟩ := h
      omega
    · simp only [Option.some.injEq, Prod.mk.injEq] at h
      obtain ⟨rfl, rfl⟩ := h
      intro u
      rw [Finset.mem_filter]
      constructor
      · rintro ⟨huS, hroot, hsize⟩
        have huW : u ∈ W0 := hSW0 huS
        rw [FindingPivots.roots, Finset.mem_filter] at hroot
        refine ⟨huS,
          (FindingPivots.indeg_eq_zero_iff edges dhat W0 u huW).mp hroot.2, ?_⟩
        rw [← FindingPivots.subtree_size_eq_ncard]
        exact hsize
      · rintro ⟨huS, hnt, hsize⟩
        have huW : u ∈ W0 := hSW0 huS
        refine ⟨huS, ?_, ?_⟩
        · rw [FindingPivots.roots, Finset.mem_filter]
          exact ⟨huW, (FindingPivots.indeg_eq_zero_iff edges dhat W0 u huW).mpr hnt⟩
        · rw [FindingPivots.subtree_size_eq_ncard]
          exact hsize

/-- Witness for the C2 theorem: a concrete slow-path call
(`edges = {0: [(1, 0)]}`, `S = {0}`, `k = 2`) whose pivot set is
characterized by the theorem, instantiated at vertex `0`. -/
theorem find_pivots_pivot_characterization_witness :
    0 ∈ ({0} : Finset Vtx) ↔
      0 ∈ ({0} : Finset Vtx) ∧
        (∀ x ∈ ({0, 1} : Finset Vtx), ∀ p ∈ lookupAdj [(0, [(1, 0)])] x,
          p.1 = 0 → ¬ FindingPivots.TightEdge (fun _ => some 0) x p) ∧
        2 ≤ Set.ncard
          {v | FindingPivots.Reaches [(0, [(1, 0)])] (fun _ => some 0) {0, 1} 0 v} := by
  have hrl : FindingPivots.relaxLoop [(0, [(1, 0)])] (fun _ => some 0)
      1 2 {0} {0} = some {0, 1} := by
    norm_num [FindingPivots.relaxLoop, FindingPivots.RelaxReads,
      FindingPivots.nextLayer, lookupAdj, FindingPivots.keeps]
    try decide
  have hlk0 : lookupAdj [(0, [(1, (0 : ℚ))])] 0 = [(1, 0)] := rfl
  have hlk1 : lookupAdj [(0, [(1, (0 : ℚ))])] 1 = [] := rfl
  have h0 : FindingPivots.childrenOf [(0, [(1, 0)])] (fun _ => some 0)
      {0, 1} 0 = [1] := by
    norm_num [FindingPivots.childrenOf, hlk0, FindingPivots.tightB,
      FindingPivots.eps]
  have h1 : FindingPivots.childrenOf [(0, [(1, 0)])] (fun _ => some 0)
      {0, 1} 1 = [] := by
    norm_num [FindingPivots.childrenOf, hlk1]
  have h : FindingPivots.find_pivots [(0, [(1, 0)])] (fun _ => some 0)
      {0} 2 1 = some ({0}, {0, 1}) := by
    rw [FindingPivots.find_pivots_eq_some _ _ _ _ _ _ hrl]
    have hfr : FindingPivots.ForestReads [(0, [(1, 0)])] (fun _ => some 0)
        {0, 1} := by
      intro u hu p hp hpW
      exact ⟨rfl, rfl⟩
    rw [if_neg (by decide), if_pos hfr]
    have hsz : FindingPivots.subtree_size [(0, [(1, 0)])] (fun _ => some 0)
        {0, 1} 0 = 2 := by
      norm_num [FindingPivots.subtree_size, FindingPivots.subtreeLoop, h0, h1]
    have hins : ({0, 1} : Finset Vtx) = insert 0 {1} := rfl
    have hind0 : FindingPivots.indeg [(0, [(1, 0)])] (fun _ => some 0)
        {0, 1} 0 = 0 := by
      rw [FindingPivots.indeg, hins, Finset.sum_insert (by decide),
        Finset.sum_singleton, h0, h1]
      decide
    have hind1 : FindingPivots.indeg [(0, [(1, 0)])] (fun _ => some 0)
        {0, 1} 1 = 1 := by
      rw [FindingPivots.indeg, hins, Finset.sum_insert (by decide),
        Finset.sum_singleton, h0, h1]
      decide
    have hrt : FindingPivots.roots [(0, [(1, 0)])] (fun _ => some 0) {0, 1} =
        {0} := by
      rw [FindingPivots.roots]
      ext v
      simp only [Finset.mem_filter, Finset.mem_insert, Finset.mem_singleton]
      constructor
      · rintro ⟨rfl | rfl, hz⟩
        · rfl
        · rw [hind1] at hz; cases hz
      · rintro rfl
        exact ⟨Or.inl rfl, hind0⟩
    rw [hrt]
    rw [show ({0} : Finset Vtx).filter (fun u =>
        u ∈ ({0} : Finset Vtx) ∧ 2 ≤ FindingPivots.subtree_size
          [(0, [(1, 0)])] (fun _ => some 0) {0, 1} u) =
        if (0 ∈ ({0} : Finset Vtx) ∧ 2 ≤ FindingPivots.subtree_size
          [(0, [(1, 0)])] (fun _ => some 0) {0, 1} 0) then {0} else ∅ from
      Finset.filter_singleton _ _]
    rw [if_pos ⟨by decide, by rw [hsz]⟩]
  exact find_pivots_pivot_characterization _ _ _ _ _ _ _ h (by decide) 0

/-- C4: whenever `find_pivots` returns a pair `(P, W)`, the frontier `W`
contains the settled set `S` and the pivot set `P` is contained in `S`. -/
theorem find_pivots_subsets (edges : Adjacency) (dhat : Vtx → Option ℚ)
    (S : Finset Vtx) (k : ℕ) (B : ℚ) (P W : Finset Vtx)
    (h : FindingPivots.find_pivots edges dhat S k B = some (P, W)) :
    S ⊆ W ∧ P ⊆ S := by
  cases hrl : FindingPivots.relaxLoop edges dhat B k S S with
  | none => rw [FindingPivots.find_pivots_eq_none edges dhat S k B hrl] at h; cases h
  | some W0 =>
    rw [FindingPivots.find_pivots_eq_some edges dhat S k B W0 hrl] at h
    have hSW0 : S ⊆ W0 := FindingPivots.relaxLoop_superset _ _ _ _ _ _ _ hrl
    split_ifs at h
    · simp only [Option.some.injEq, Prod.mk.injEq] at h
      obtain ⟨rfl, rfl⟩ := h
      exact ⟨hSW0, subset_rfl⟩
    · simp only [Option.some.injEq, Prod.mk.injEq] at h
      obtain ⟨rfl, rfl⟩ := h
      exact ⟨hSW0, Finset.filter_subset _ _⟩

/-- C3: if `find_pivots` returns `(P, W)` and the returned frontier is
large (`|W| > k * max(1, |S|)`), then the fast path was taken and `P = S`
exactly. -/
theorem find_pivots_fast_path (edges : Adjacency) (dhat : Vtx → Option ℚ)
    (S : Finset Vtx) (k : ℕ) (B : ℚ) (P W : Finset Vtx)
    (h : FindingPivots.find_pivots edges dhat S k B = some (P, W))
    (hbig : k * max 1 S.card < W.card) : P = S := by
  cases hrl : FindingPivots.relaxLoop edges dhat B k S S with
  | none => rw [FindingPivots.find_pivots_eq_none edges dhat S k B hrl] at h; cases h
  | some W0 =>
    rw [FindingPivots.find_pivots_eq_some edges dhat S k B W0 hrl] at h
    split_ifs at h with h1 h2
    · simp only [Option.some.injEq, Prod.mk.injEq] at h
      exact h.1.symm
    · simp only [Option.some.injEq, Prod.mk.injEq] at h
      obtain ⟨rfl, rfl⟩ := h
      exact absurd hbig h1

/-- C10 (amended): if `d_hat` is defined on every vertex of `S` and on both
endpoints of every edge leaving the accumulated frontier, then no lookup
fails and `find_pivots` returns a pair; and if the very first relaxation
sweep performs a lookup on a missing vertex (`k >= 1` and some edge out of
`S` has an endpoint outside the domain of `d_hat`), the call raises a
`KeyError` instead of returning.  (A vertex of `S` without outgoing edges
is never looked up, so its absence alone does not force an error — see the
counterexample.) -/
theorem find_pivots_lookup_domain (edges : Adjacency) (dhat : Vtx → Option ℚ)
    (S : Finset Vtx) (k : ℕ) (B : ℚ) :
    ((∀ u ∈ S, (dhat u).isSome) →
      (∀ u ∈ FindingPivots.relaxLoopT edges dhat B k S S,
        ∀ p ∈ lookupAdj edges u, (dhat u).isSome ∧ (dhat p.1).isSome) →
      (FindingPivots.find_pivots edges dhat S k B).isSome)
    ∧ (1 ≤ k → ¬ FindingPivots.RelaxReads edges dhat S →
        FindingPivots.find_pivots edges dhat S k B = none) := by
  constructor
  · intro _ hreads
    have heq := FindingPivots.relaxLoop_eq_total edges dhat B k S S subset_rfl hreads
    have hFR : FindingPivots.ForestReads edges dhat
        (FindingPivots.relaxLoopT edges dhat B k S S) :=
      fun u hu p hp _ => hreads u hu p hp
    rw [FindingPivots.find_pivots_eq_some edges dhat S k B _ heq]
    split_ifs with h1
    · simp
    · simp
  · intro hk hnR
    obtain ⟨j, rfl⟩ : ∃ j, k = j + 1 := ⟨k - 1, by omega⟩
    unfold FindingPivots.find_pivots
    simp only [FindingPivots.relaxLoop]
    rw [if_neg hnR]

/-- Witness for the C10 theorem: on a concrete graph with a totally defined
`d_hat`, the preconditions hold and `find_pivots` returns a pair. -/
theorem find_pivots_lookup_domain_witness :
    (FindingPivots.find_pivots [(0, [(1, 0), (2, 0)])] (fun _ => some 0)
      {0} 1 1).isSome := by
  refine (find_pivots_lookup_domain _ _ _ _ _).1 (by decide) ?_
  have hT : FindingPivots.relaxLoopT [(0, [(1, 0), (2, 0)])] (fun _ => some 0)
      1 1 {0} {0} = {0, 1, 2} := by
    norm_num [FindingPivots.relaxLoopT, FindingPivots.nextLayer, lookupAdj,
      FindingPivots.keeps]
    try decide
  rw [hT]
  decide

/-- C10 counterexample: vertex `0` is in `S`, has no `d_hat` entry at all,
and has no outgoing edges; the call performs no `d_hat` lookup and returns
`({0}, {0})` normally, contradicting the claim that a missing `d_hat` value
for a vertex of `S` makes the call raise a key-lookup error. -/
theorem find_pivots_missing_key_returns :
    FindingPivots.find_pivots [] (fun _ => none) {0} 1 0 = some ({0}, {0}) := by
  have hrl : FindingPivots.relaxLoop [] (fun _ => none) 0 1 {0} {0} = some {0} := by
    simp [FindingPivots.relaxLoop, FindingPivots.RelaxReads,
      FindingPivots.nextLayer, lookupAdj]
  rw [FindingPivots.find_pivots_eq_some _ _ _ _ _ _ hrl]
  norm_num [FindingPivots.ForestReads, lookupAdj, FindingPivots.roots,
    FindingPivots.indeg, FindingPivots.subtree_size, FindingPivots.subtreeLoop,
    FindingPivots.childrenOf]
  decide

/-- Witness for the C3 theorem: a concrete call that takes the fast path
(`|W| = 3 > 1 = k * max(1, |S|)`) and returns `P = S`. -/
theorem find_pivots_fast_path_witness :
    FindingPivots.find_pivots [(0, [(1, 0), (2, 0)])] (fun _ => some 0) {0} 1 1 =
        some ({0}, {0, 1, 2}) ∧
      1 * max 1 ({0} : Finset Vtx).card < ({0, 1, 2} : Finset Vtx).card ∧
      ({0} : Finset Vtx) = {0} := by
  have hrl : FindingPivots.relaxLoop [(0, [(1, 0), (2, 0)])] (fun _ => some 0)
      1 1 {0} {0} = some {0, 1, 2} := by
    norm_num [FindingPivots.relaxLoop, FindingPivots.RelaxReads,
      FindingPivots.nextLayer, lookupAdj, FindingPivots.keeps]
    try decide
  have h : FindingPivots.find_pivots [(0, [(1, 0), (2, 0)])] (fun _ => some 0)
      {0} 1 1 = some ({0}, {0, 1, 2}) := by
    rw [FindingPivots.find_pivots_eq_some _ _ _ _ _ _ hrl]
    norm_num
  exact ⟨h, by decide, find_pivots_fast_path _ _ _ _ _ _ _ h (by decide)⟩

/-- Witness for the C4 theorem at a concrete call. -/
theorem find_pivots_subsets_witness :
    FindingPivots.find_pivots [(0, [(1, 0), (2, 0), (0, 0)])] (fun _ => some 0)
        {0} 1 1 = some ({0}, {0, 1, 2}) ∧
      ({0} : Finset Vtx) ⊆ {0, 1, 2} ∧ ({0} : Finset Vtx) ⊆ {0} := by
  have hrl : FindingPivots.relaxLoop [(0, [(1, 0), (2, 0), (0, 0)])]
      (fun _ => some 0) 1 1 {0} {0} = some {0, 1, 2} := by
    norm_num [FindingPivots.relaxLoop, FindingPivots.RelaxReads,
      FindingPivots.nextLayer, lookupAdj, FindingPivots.keeps]
    try decide
  have h : FindingPivots.find_pivots [(0, [(1, 0), (2, 0), (0, 0)])]
      (fun _ => some 0) {0} 1 1 = some ({0}, {0, 1, 2}) := by
    rw [FindingPivots.find_pivots_eq_some _ _ _ _ _ _ hrl]
    norm_num
  have hs := find_pivots_subsets _ _ _ _ _ _ _ h
  exact ⟨h, hs.1, hs.2⟩

theorem radiusOk_iff_d2 (n : D2.Node) (d : ℚ) :
    D2.radiusOk n d = true ↔ ∃ r, n.r = some r ∧ d ≤ r := by
  unfold D2.radiusOk
  cases hn : n.r <;> simp

/-- C6: in coverage-symmetric mode (`'both'` in `iot_routing_dijkstra.py`,
`'range'` in `dijistra2.py`), for nodes `a`, `b` with distinct ids the
directed edge `a.id -> b.id` with weight `w` is present iff the distance is
at most both coverage radii (i.e. at most the smaller of the two) and `w`
is the direction-averaged weight `0.5 * (wfn a b + wfn b a)`.  The distance
function is a rational-valued parameter assumed symmetric (the source
evaluates `euclid` once per unordered pair; the genuine Euclidean distance
is symmetric). -/
theorem coverage_symmetric_edge_iff :
    (∀ (euclid wfn : Iot.Node → Iot.Node → ℚ) (nodes : List Iot.Node)
      (adj : Adjacency), (nodes.map Iot.Node.id).Nodup →
      (∀ x y, euclid x y = euclid y x) →
      Iot.build_graph euclid wfn nodes "both" = .ok adj →
      ∀ a ∈ nodes, ∀ b ∈ nodes, a.id ≠ b.id → ∀ w : ℚ,
        ((b.id, w) ∈ lookupAdj adj a.id ↔
          euclid a b ≤ a.r ∧ euclid a b ≤ b.r ∧
            w = (1 / 2) * (wfn a b + wfn b a)))
    ∧ (∀ (euclid wfn : D2.Node → D2.Node → ℚ) (nodes : List D2.Node)
      (paths : Option (List D2.Path)) (und : Bool) (adj : Adjacency),
      (nodes.map D2.Node.id).Nodup →
      (∀ x y, euclid x y = euclid y x) →
      D2.build_graph euclid wfn nodes "range" paths und = .ok adj →
      ∀ a ∈ nodes, ∀ b ∈ nodes, a.id ≠ b.id → ∀ w : ℚ,
        ((b.id, w) ∈ lookupAdj adj a.id ↔
          (∃ ra rb, a.r = some ra ∧ b.r = some rb ∧
            euclid a b ≤ ra ∧ euclid a b ≤ rb) ∧
            w = (1 / 2) * (wfn a b + wfn b a))) := by
  constructor
  · intro euclid wfn nodes adj hnd hsym hbg a ha b hb hne w
    have hadj : adj = nodes.map fun n =>
        (n.id, Build.symNeighbors Iot.Node.id
          (fun x y => decide (euclid x y ≤ min x.r y.r))
          (fun x y => ((1 : ℚ) / 2) * (wfn x y + wfn y x)) nodes n.id) := by
      unfold Iot.build_graph at hbg
      rw [if_pos rfl] at hbg
      exact (Except.ok.inj hbg).symm
    subst hadj
    rw [Build.lookup_map_adj Iot.Node.id _ nodes (List.mem_map_of_mem _ ha)]
    rw [Build.mem_symNeighbors Iot.Node.id _ _ nodes hnd
      (fun x y => by rw [decide_eq_decide, hsym x y, min_comm])
      (fun x y => by rw [add_comm]) ha hb hne w]
    simp only [decide_eq_true_eq, le_min_iff]
    tauto
  · intro euclid wfn nodes paths und adj hnd hsym hbg a ha b hb hne w
    have hadj : adj = nodes.map fun n =>
        (n.id, Build.symNeighbors D2.Node.id
          (fun x y => D2.radiusOk x (euclid x y) && D2.radiusOk y (euclid x y))
          (fun x y => ((1 : ℚ) / 2) * (wfn x y + wfn y x)) nodes n.id) := by
      unfold D2.build_graph at hbg
      rw [if_neg (by decide), if_pos rfl] at hbg
      exact (Except.ok.inj hbg).symm
    subst hadj
    rw [Build.lookup_map_adj D2.Node.id _ nodes (List.mem_map_of_mem _ ha)]
    rw [Build.mem_symNeighbors D2.Node.id _ _ nodes hnd
      (fun x y => by rw [hsym x y, Bool.and_comm])
      (fun x y => by rw [add_comm]) ha hb hne w]
    simp only [Bool.and_eq_true, radiusOk_iff_d2]
    constructor
    · rintro ⟨⟨⟨ra, hra, hda⟩, ⟨rb, hrb, hdb⟩⟩, rfl⟩
      exact ⟨⟨ra, rb, hra, hrb, hda, hdb⟩, rfl⟩
    · rintro ⟨⟨ra, rb, hra, hrb, hda, hdb⟩, rfl⟩
      exact ⟨⟨⟨ra, hra, hda⟩, ⟨rb, hrb, hdb⟩⟩, rfl⟩

/-- Witness for the C6 theorem: two nodes at parameterized distance 1 with
radii 5, constant weight function 3; the theorem instance decides the edge
membership. -/
theorem coverage_symmetric_edge_iff_witness :
    ((1 : Vtx), ((1 : ℚ) / 2) * (3 + 3)) ∈ lookupAdj
        (([⟨0, 0, 0, 5⟩, ⟨1, 0, 0, 5⟩] : List Iot.Node).map fun n =>
          (n.id, Build.symNeighbors Iot.Node.id
            (fun x y => decide ((fun _ _ => (1 : ℚ)) x y ≤ min x.r y.r))
            (fun x y => ((1 : ℚ) / 2) *
              ((fun _ _ => (3 : ℚ)) x y + (fun _ _ => (3 : ℚ)) y x))
            [⟨0, 0, 0, 5⟩, ⟨1, 0, 0, 5⟩] n.id)) 0 ↔
      (1 : ℚ) ≤ (5 : ℚ) ∧ (1 : ℚ) ≤ (5 : ℚ) ∧
        ((1 : ℚ) / 2) * (3 + 3) = (1 / 2) * (3 + 3) :=
  coverage_symmetric_edge_iff.1 (fun _ _ => 1) (fun _ _ => 3)
    ([⟨0, 0, 0, 5⟩, ⟨1, 0, 0, 5⟩] : List Iot.Node) _ (by decide)
    (fun _ _ => rfl) rfl
    ⟨0, 0, 0, 5⟩ (by simp) ⟨1, 0, 0, 5⟩ (by simp) (by decide) _

/-- C7: in explicit-edges mode (`'paths'` with a supplied record list),
`build_graph` raises the data-integrity `KeyError` iff some record
references a vertex id absent from the node set; when no record does, each
record `p` contributes the edge `p.start -> p.end` with weight `p.length`,
plus the mirrored edge when `undirected` is requested. -/
theorem paths_mode_integrity :
    ∀ (euclid wfn : D2.Node → D2.Node → ℚ) (nodes : List D2.Node)
      (ps : List D2.Path) (und : Bool),
      ((D2.build_graph euclid wfn nodes "paths" (some ps) und =
          .error .keyError) ↔
        ∃ p ∈ ps, p.start_id ∉ nodes.map D2.Node.id ∨
          p.end_id ∉ nodes.map D2.Node.id)
      ∧ (∀ adj, D2.build_graph euclid wfn nodes "paths" (some ps) und =
          .ok adj →
          ∀ p ∈ ps, (p.end_id, p.length) ∈ lookupAdj adj p.start_id ∧
            (und = true → (p.start_id, p.length) ∈ lookupAdj adj p.end_id)) := by
  intro euclid wfn nodes ps und
  have hunf : D2.build_graph euclid wfn nodes "paths" (some ps) und =
      if ps.all (fun p =>
          decide (p.start_id ∈ nodes.map D2.Node.id) &&
            decide (p.end_id ∈ nodes.map D2.Node.id)) then
        .ok (nodes.map fun n => (n.id, D2.pathNeighbors ps und n.id))
      else .error .keyError := by
    unfold D2.build_graph
    rw [if_pos rfl]
  constructor
  · rw [hunf]
    split_ifs with hall
    · simp only [List.all_eq_true, Bool.and_eq_true, decide_eq_true_eq] at hall
      constructor
      · intro h; cases h
      · rintro ⟨p, hp, hbad⟩
        rcases hbad with hbad | hbad
        · exact absurd (hall p hp).1 hbad
        · exact absurd (hall p hp).2 hbad
    · simp only [List.all_eq_true, Bool.and_eq_true, decide_eq_true_eq,
        not_forall] at hall
      constructor
      · intro _
        obtain ⟨p, hp, hbad⟩ := hall
        rw [Classical.not_and_iff_or_not_not] at hbad
        exact ⟨p, hp, by tauto⟩
      · intro _; rfl
  · intro adj hok p hp
    rw [hunf] at hok
    split_ifs at hok with hall
    · simp only [List.all_eq_true, Bool.and_eq_true, decide_eq_true_eq] at hall
      obtain rfl : (nodes.map fun n => (n.id, D2.pathNeighbors ps und n.id)) =
          adj := Except.ok.inj hok
      constructor
      · rw [Build.lookup_map_adj D2.Node.id _ nodes (hall p hp).1]
        unfold D2.pathNeighbors
        rw [List.mem_flatMap]
        exact ⟨p, hp, by simp⟩
      · intro hund
        rw [Build.lookup_map_adj D2.Node.id _ nodes (hall p hp).2]
        unfold D2.pathNeighbors
        rw [List.mem_flatMap]
        refine ⟨p, hp, ?_⟩
        rw [List.mem_append]
        exact Or.inr (by simp [hund])

/-- Witness for the C7 theorem: one record `0 -> 1` of length 5 with
mirroring; both the forward and the mirrored edge are present. -/
theorem paths_mode_integrity_witness :
    ((1 : Vtx), (5 : ℚ)) ∈ lookupAdj
        (([⟨0, 0, 0, none⟩, ⟨1, 0, 0, none⟩] : List D2.Node).map fun n =>
          (n.id, D2.pathNeighbors [⟨7, 0, 1, 5⟩] true n.id)) 0 ∧
      ((0 : Vtx), (5 : ℚ)) ∈ lookupAdj
        (([⟨0, 0, 0, none⟩, ⟨1, 0, 0, none⟩] : List D2.Node).map fun n =>
          (n.id, D2.pathNeighbors [⟨7, 0, 1, 5⟩] true n.id)) 1 := by
  have h := (paths_mode_integrity (fun _ _ => 0) (fun _ _ => 0)
    ([⟨0, 0, 0, none⟩, ⟨1, 0, 0, none⟩] : List D2.Node) [⟨7, 0, 1, 5⟩] true).2
    _ rfl ⟨7, 0, 1, 5⟩ (by simp)
  exact ⟨h.1, h.2 rfl⟩

/-- C8 (amended): in a coverage mode (`'both'` or `'either'`), if every
node has coverage radius 0 and all pairs of distinct nodes are at positive
distance, `build_graph` produces an adjacency with no edges at all.  (The
positivity hypothesis is forced by the counterexample: two distinct nodes
at the same position are at Euclidean distance 0 <= 0 and do get an edge.) -/
theorem zero_radius_no_edges :
    ∀ (euclid wfn : Iot.Node → Iot.Node → ℚ) (nodes : List Iot.Node)
      (mode : String) (adj : Adjacency),
      (mode = "both" ∨ mode = "either") →
      (nodes.map Iot.Node.id).Nodup →
      (∀ n ∈ nodes, n.r = 0) →
      (∀ a ∈ nodes, ∀ b ∈ nodes, a.id ≠ b.id → 0 < euclid a b) →
      Iot.build_graph euclid wfn nodes mode = .ok adj →
      ∀ e ∈ adj, e.2 = [] := by
  intro euclid wfn nodes mode adj hmode hnd hr hpos hbg e he
  rcases hmode with rfl | rfl
  · have hadj : adj = nodes.map fun n =>
        (n.id, Build.symNeighbors Iot.Node.id
          (fun x y => decide (euclid x y ≤ min x.r y.r))
          (fun x y => ((1 : ℚ) / 2) * (wfn x y + wfn y x)) nodes n.id) := by
      unfold Iot.build_graph at hbg
      rw [if_pos rfl] at hbg
      exact (Except.ok.inj hbg).symm
    subst hadj
    obtain ⟨n, hn, rfl⟩ := List.mem_map.mp he
    dsimp only
    apply Build.symNeighbors_eq_nil
    intro a b hab
    have hmem := Build.mem_pairs hab
    have hne := Build.pairs_id_ne Iot.Node.id hnd hab
    have hp := hpos a hmem.1 b hmem.2 hne
    rw [hr a hmem.1, hr b hmem.2]
    simp only [min_self, decide_eq_false_iff_not, not_le]
    exact hp
  · have hadj : adj = nodes.map fun n =>
        (n.id, Build.eitherNeighbors Iot.Node.id (Iot.in_range euclid) wfn
          nodes n.id) := by
      unfold Iot.build_graph at hbg
      rw [if_neg (by decide), if_pos rfl] at hbg
      exact (Except.ok.inj hbg).symm
    subst hadj
    obtain ⟨n, hn, rfl⟩ := List.mem_map.mp he
    dsimp only
    apply Build.eitherNeighbors_eq_nil
    intro a b hab
    have hmem := Build.mem_pairs hab
    have hne := Build.pairs_id_ne Iot.Node.id hnd hab
    constructor
    · unfold Iot.in_range
      rw [hr a hmem.1]
      simp only [decide_eq_false_iff_not, not_le]
      exact hpos a hmem.1 b hmem.2 hne
    · unfold Iot.in_range
      rw [hr b hmem.2]
      simp only [decide_eq_false_iff_not, not_le]
      exact hpos b hmem.2 a hmem.1 hne.symm

/-- Witness for the amended C8 theorem: two zero-radius nodes at positive
parameterized distance yield the edgeless adjacency. -/
theorem zero_radius_no_edges_witness :
    Iot.build_graph (fun _ _ => 1) (fun _ _ => 0)
        ([⟨0, 0, 0, 0⟩, ⟨1, 3, 0, 0⟩] : List Iot.Node) "both" =
      .ok [(0, []), (1, [])] ∧
    ((0 : Vtx), ([] : List (Vtx × ℚ))).2 = [] := by
  constructor
  · rfl
  · exact zero_radius_no_edges (fun _ _ => 1) (fun _ _ => 0)
      ([⟨0, 0, 0, 0⟩, ⟨1, 3, 0, 0⟩] : List Iot.Node) "both" [(0, []), (1, [])]
      (Or.inl rfl) (by decide) (by decide) (by decide) rfl (0, []) (by simp)

/-- C8 counterexample: two DISTINCT zero-radius nodes placed at the same
position are at Euclidean distance 0 (instantiated here as the constantly-0
distance function, which agrees with `math.hypot` on coincident points), so
coverage-symmetric mode does add the pair of edges — `build_graph` does not
produce an edgeless graph for zero-radius vertices at every placement. -/
theorem zero_radius_coincident_edge :
    Iot.build_graph (fun _ _ => 0) (fun _ _ => 0)
        ([⟨0, 0, 0, 0⟩, ⟨1, 0, 0, 0⟩] : List Iot.Node) "both" =
      .ok [(0, [(1, (1 / 2 : ℚ) * (0 + 0))]),
        (1, [(0, (1 / 2 : ℚ) * (0 + 0))])] ∧
    ((1 : Vtx), (1 / 2 : ℚ) * (0 + 0)) ∈
      lookupAdj [(0, [(1, (1 / 2 : ℚ) * (0 + 0))]),
        (1, [(0, (1 / 2 : ℚ) * (0 + 0))])] 0 := by
  constructor
  · rfl
  · simp [lookupAdj, List.lookup]

/-- C9 (amended): calling `build_graph` with an unrecognized mode string
raises `ValueError` on every call in `dijistra2.py` (top-level `else`), but
in `iot_routing_dijkstra.py` the `raise` sits inside the pair loop, so the
error is raised iff at least two nodes exist; with 0 or 1 nodes the call
returns the edgeless adjacency instead. -/
theorem invalid_mode_error :
    (∀ (euclid wfn : D2.Node → D2.Node → ℚ) (nodes : List D2.Node)
      (mode : String) (paths : Option (List D2.Path)) (und : Bool),
      mode ≠ "range" → mode ≠ "paths" →
      D2.build_graph euclid wfn nodes mode paths und = .error .valueError)
    ∧ (∀ (euclid wfn : Iot.Node → Iot.Node → ℚ) (nodes : List Iot.Node)
      (mode : String), mode ≠ "both" → mode ≠ "either" →
      ((2 ≤ nodes.length →
        Iot.build_graph euclid wfn nodes mode = .error .valueError) ∧
       (nodes.length ≤ 1 →
        Iot.build_graph euclid wfn nodes mode =
          .ok (nodes.map fun n => (n.id, []))))) := by
  constructor
  · intro euclid wfn nodes mode paths und hr hp
    unfold D2.build_graph
    rw [if_neg hp, if_neg hr]
  · intro euclid wfn nodes mode hb he
    constructor
    · intro hlen
      have hne2 : Build.pairs nodes ≠ [] := by
        rw [Ne, Build.pairs_eq_nil_iff]
        omega
      unfold Iot.build_graph
      rw [if_neg hb, if_neg he, if_neg hne2]
    · intro hlen
      have heq : Build.pairs nodes = [] := Build.pairs_eq_nil_iff.mpr hlen
      unfold Iot.build_graph
      rw [if_neg hb, if_neg he, if_pos heq]

/-- Witness for the amended C9 theorem: a bad mode raises in `dijistra2.py`
on the empty node set, while `iot_routing_dijkstra.py` returns the edgeless
adjacency for a single node. -/
theorem invalid_mode_error_witness :
    D2.build_graph (fun _ _ => 0) (fun _ _ => 0) ([] : List D2.Node) "foo"
        none false = .error .valueError ∧
      Iot.build_graph (fun _ _ => 0) (fun _ _ => 0)
        ([⟨0, 0, 0, 0⟩] : List Iot.Node) "foo" = .ok [(0, [])] := by
  constructor
  · exact invalid_mode_error.1 (fun _ _ => 0) (fun _ _ => 0) [] "foo" none
      false (by decide) (by decide)
  · have h := (invalid_mode_error.2 (fun _ _ => 0) (fun _ _ => 0)
      ([⟨0, 0, 0, 0⟩] : List Iot.Node) "foo" (by decide) (by decide)).2
      (by decide)
    simpa using h

/-- C9 counterexample: in `iot_routing_dijkstra.py` an unrecognized mode
with a single node (the pair loop never runs) returns a normal adjacency
instead of raising — the error is not surfaced on every bad-mode call. -/
theorem invalid_mode_single_node_returns :
    Iot.build_graph (fun _ _ => 0) (fun _ _ => 0)
        ([⟨0, 0, 0, 0⟩] : List Iot.Node) "neither" = .ok [(0, [])] := rfl

/-! ### Lemmas about the shortest-path engine -/

namespace SP

theorem lexMin2_cases (a b : ℚ × Vtx) : lexMin2 a b = a ∨ lexMin2 a b = b := by
  unfold lexMin2
  split
  · exact Or.inr rfl
  · exact Or.inl rfl

theorem lexMin2_fst_le_left (a b : ℚ × Vtx) : (lexMin2 a b).1 ≤ a.1 := by
  unfold lexMin2
  split
  · next h =>
    rcases h with h | h
    · exact le_of_lt h
    · exact le_of_eq h.1
  · exact le_refl _

theorem lexMin2_fst_le_right (a b : ℚ × Vtx) : (lexMin2 a b).1 ≤ b.1 := by
  unfold lexMin2
  split
  · exact le_refl _
  · next h =>
    exact le_of_not_lt fun hc => h (Or.inl hc)

theorem foldl_lexMin2_mem (l : List (ℚ × Vtx)) :
    ∀ acc, l.foldl lexMin2 acc = acc ∨ l.foldl lexMin2 acc ∈ l := by
  induction l with
  | nil => intro acc; exact Or.inl rfl
  | cons b t ih =>
    intro acc
    rcases ih (lexMin2 acc b) with h | h
    · rcases lexMin2_cases acc b with h2 | h2
      · exact Or.inl (by rw [List.foldl_cons, h, h2])
      · exact Or.inr (by rw [List.foldl_cons, h, h2]; exact List.mem_cons_self _ _)
    · exact Or.inr (List.mem_cons_of_mem _ (by rw [List.foldl_cons]; exact h))

theorem foldl_lexMin2_le (l : List (ℚ × Vtx)) :
    ∀ acc, (l.foldl lexMin2 acc).1 ≤ acc.1 ∧
      ∀ e ∈ l, (l.foldl lexMin2 acc).1 ≤ e.1 := by
  induction l with
  | nil => intro acc; exact ⟨le_refl _, by intro e he; cases he⟩
  | cons b t ih =>
    intro acc
    have hih := ih (lexMin2 acc b)
    constructor
    · exact le_trans (by rw [List.foldl_cons]; exact hih.1) (lexMin2_fst_le_left acc b)
    · intro e he
      rcases List.mem_cons.mp he with heq | he
      · subst heq
        exact le_trans (by rw [List.foldl_cons]; exact hih.1)
          (lexMin2_fst_le_right acc e)
      · rw [List.foldl_cons]
        exact hih.2 e he

theorem pqMin_spec {pq : List (ℚ × Vtx)} {m : ℚ × Vtx} (h : pqMin pq = some m) :
    m ∈ pq ∧ ∀ e ∈ pq, m.1 ≤ e.1 := by
  cases pq with
  | nil => cases h
  | cons e es =>
    obtain rfl : es.foldl lexMin2 e = m := by simpa [pqMin] using h
    constructor
    · rcases foldl_lexMin2_mem es e with h2 | h2
      · rw [h2]; exact List.mem_cons_self _ _
      · exact List.mem_cons_of_mem _ h2
    · intro e2 he2
      rcases List.mem_cons.mp he2 with heq | he2
      · rw [heq]
        exact (foldl_lexMin2_le es e).1
      · exact (foldl_lexMin2_le es e).2 e2 he2

theorem heapPop_eq_none_iff {pq : List (ℚ × Vtx)} : heapPop pq = none ↔ pq = [] := by
  cases pq with
  | nil => simp [heapPop, pqMin]
  | cons e es => simp [heapPop, pqMin]

theorem heapPop_spec {pq pq1 : List (ℚ × Vtx)} {d : ℚ} {u : Vtx}
    (h : heapPop pq = some ((d, u), pq1)) :
    (d, u) ∈ pq ∧ pq1 = pq.erase (d, u) ∧ ∀ e ∈ pq, d ≤ e.1 := by
  unfold heapPop at h
  cases hm : pqMin pq with
  | none => rw [hm] at h; cases h
  | some m =>
    rw [hm] at h
    obtain ⟨rfl, rfl⟩ : m = (d, u) ∧ pq.erase m = pq1 := by
      simpa [Prod.ext_iff, eq_comm] using h
    have hspec := pqMin_spec hm
    exact ⟨hspec.1, rfl, hspec.2⟩

theorem inv_init (adj : Adjacency) (banned : List Vtx) (start : Vtx) :
    Inv adj banned start
      { dist := fun v => if v = start then ((0 : ℚ) : WithTop ℚ) else ⊤
        prev := fun _ => none
        pq := [(0, start)] } [] := by
  constructor
  · simp
  · intro v _ hv
    by_contra hne
    simp [hne] at hv
  · intro e he
    obtain rfl : e = ((0 : ℚ), start) := by simpa using he
    exact le_refl _
  · intro v
    by_cases hv : v = start <;> simp [hv]
  · intro v u h; cases h
  · intro v hv; cases hv
  · intro v u h hv; cases h
  · exact List.nodup_nil

theorem inv_pq_erase {adj : Adjacency} {banned : List Vtx} {start : Vtx}
    {s : St} {σ : List Vtx} (hInv : Inv adj banned start s σ) (m : ℚ × Vtx) :
    Inv adj banned start { s with pq := s.pq.erase m } σ := by
  obtain ⟨h1, h2, h3, h4, h5, h6, h7, h8⟩ := hInv
  refine ⟨h1, h2, ?_, h4, h5, ?_, h7, h8⟩
  · intro e he
    exact h3 e (List.mem_of_mem_erase he)
  · intro v hv
    obtain ⟨dv, hdv, hle⟩ := h6 v hv
    exact ⟨dv, hdv, fun e he => hle e (List.mem_of_mem_erase he)⟩

theorem relaxEdge_inv {adj : Adjacency} {banned : List Vtx} {start : Vtx}
    {s : St} {σ : List Vtx} {u : Vtx} {d : ℚ} {e : Vtx × ℚ}
    (hInv : Inv adj banned start s σ)
    (hu : u ∈ σ)
    (hdu : s.dist u = ((d : ℚ) : WithTop ℚ))
    (hdle : ∀ v ∈ σ, ∀ dv : ℚ, s.dist v = ((dv : ℚ) : WithTop ℚ) → dv ≤ d)
    (he : e ∈ lookupAdj adj u)
    (hw : 0 ≤ e.2)
    (hd0 : 0 ≤ d) :
    Inv adj banned start (relaxEdge banned u d s e) σ ∧
      (relaxEdge banned u d s e).dist u = ((d : ℚ) : WithTop ℚ) ∧
      (∀ v ∈ σ, ∀ dv : ℚ,
        (relaxEdge banned u d s e).dist v = ((dv : ℚ) : WithTop ℚ) → dv ≤ d) := by
  unfold relaxEdge
  split
  · exact ⟨hInv, hdu, hdle⟩
  · split
    · next hlt =>
      have hxσ : e.1 ∉ σ := by
        intro hxmem
        obtain ⟨dx, hdx, -⟩ := hInv.settled_le e.1 hxmem
        have hdxd : dx ≤ d := hdle e.1 hxmem dx hdx
        rw [hdx] at hlt
        have hcast : (d + e.2 : ℚ) < dx := by exact_mod_cast hlt
        linarith
      have hxu : e.1 ≠ u := fun hc => hxσ (hc ▸ hu)
      have hxstart : e.1 ≠ start := by
        intro hc
        rw [hc, hInv.dist_start] at hlt
        have hcast : (d + e.2 : ℚ) < 0 := by exact_mod_cast hlt
        linarith
      refine ⟨⟨?_, ?_, ?_, ?_, ?_, ?_, ?_, hInv.nodup⟩, ?_, ?_⟩
      · show Function.update s.dist e.1 _ start = _
        rw [Function.update_noteq (Ne.symm hxstart)]
        exact hInv.dist_start
      · intro v hv hdist
        dsimp only at hv hdist
        by_cases hvx : v = e.1
        · subst hvx
          rw [Function.update_same] at hv
          cases hv
        · rw [Function.update_noteq hvx] at hv
          rw [Function.update_noteq hvx] at hdist
          exact hInv.prev_none v hv hdist
      · intro e2 he2
        dsimp only at he2
        rcases List.mem_cons.mp he2 with heq | he2
        · rw [heq]
          exact add_nonneg hd0 hw
        · exact hInv.pq_nonneg e2 he2
      · intro v
        dsimp only
        by_cases hvx : v = e.1
        · subst hvx
          rw [Function.update_same]
          exact_mod_cast add_nonneg hd0 hw
        · rw [Function.update_noteq hvx]
          exact hInv.dist_nonneg v
      · intro v u2 hprev
        dsimp only at hprev ⊢
        by_cases hvx : v = e.1
        · subst hvx
          rw [Function.update_same] at hprev
          obtain rfl : u = u2 := by simpa using hprev
          refine ⟨hu, e.2, d, ?_, ?_, ?_⟩
          · simpa using he
          · rw [Function.update_noteq (Ne.symm hxu)]
            exact hdu
          · rw [Function.update_same]
        · rw [Function.update_noteq hvx] at hprev
          obtain ⟨hu2σ, w, du, hedge, hdu2, hdv2⟩ := hInv.prev_edge v u2 hprev
          have hu2x : u2 ≠ e.1 := fun hc => hxσ (hc ▸ hu2σ)
          refine ⟨hu2σ, w, du, hedge, ?_, ?_⟩
          · rw [Function.update_noteq hu2x]
            exact hdu2
          · rw [Function.update_noteq hvx]
            exact hdv2
      · intro v hv
        dsimp only
        obtain ⟨dv, hdv, hle⟩ := hInv.settled_le v hv
        have hvx : v ≠ e.1 := fun hc => hxσ (hc ▸ hv)
        refine ⟨dv, by rw [Function.update_noteq hvx]; exact hdv, ?_⟩
        intro e2 he2
        rcases List.mem_cons.mp he2 with heq | he2
        · rw [heq]
          have hdvd : dv ≤ d := hdle v hv dv hdv
          have hw2 : 0 ≤ e.2 := hw
          simp only
          linarith
        · exact hle e2 he2
      · intro v u2 hprev hvσ
        dsimp only at hprev
        have hvx : v ≠ e.1 := fun hc => hxσ (hc ▸ hvσ)
        rw [Function.update_noteq hvx] at hprev
        exact hInv.prev_order v u2 hprev hvσ
      · show Function.update s.dist e.1 _ u = _
        rw [Function.update_noteq (Ne.symm hxu)]
        exact hdu
      · intro v hv dv hdv
        dsimp only at hdv
        have hvx : v ≠ e.1 := fun hc => hxσ (hc ▸ hv)
        rw [Function.update_noteq hvx] at hdv
        exact hdle v hv dv hdv
    · exact ⟨hInv, hdu, hdle⟩

theorem weights_nonneg_of (adj : Adjacency)
    (Hw : ∀ pr ∈ adj, ∀ e ∈ pr.2, 0 ≤ e.2) (u : Vtx) :
    ∀ e ∈ lookupAdj adj u, 0 ≤ e.2 := by
  intro e he
  by_cases hnil : lookupAdj adj u = []
  · rw [hnil] at he; cases he
  · exact Hw _ (lookupAdj_mem_of_ne_nil hnil) e he

theorem relaxList_inv {adj : Adjacency} {banned : List Vtx} {start : Vtx}
    {σ : List Vtx} {u : Vtx} {d : ℚ} :
    ∀ (L : List (Vtx × ℚ)) (s : St),
      (∀ e ∈ L, e ∈ lookupAdj adj u ∧ 0 ≤ e.2) →
      Inv adj banned start s σ → u ∈ σ →
      s.dist u = ((d : ℚ) : WithTop ℚ) →
      (∀ v ∈ σ, ∀ dv : ℚ, s.dist v = ((dv : ℚ) : WithTop ℚ) → dv ≤ d) →
      0 ≤ d →
      Inv adj banned start (L.foldl (relaxEdge banned u d) s) σ := by
  intro L
  induction L with
  | nil => intro s _ hInv _ _ _ _; exact hInv
  | cons e t ih =>
    intro s hL hInv hu hdu hdle hd0
    have hstep := relaxEdge_inv hInv hu hdu hdle (hL e (List.mem_cons_self _ _)).1
      (hL e (List.mem_cons_self _ _)).2 hd0
    rw [List.foldl_cons]
    exact ih _ (fun e2 he2 => hL e2 (List.mem_cons_of_mem _ he2))
      hstep.1 hu hstep.2.1 hstep.2.2 hd0

theorem inv_settle {adj : Adjacency} {banned : List Vtx} {start : Vtx}
    {s : St} {σ : List Vtx} {d : ℚ} {u : Vtx}
    (hInv : Inv adj banned start s σ)
    (hmem : (d, u) ∈ s.pq)
    (hmin : ∀ e ∈ s.pq, d ≤ e.1)
    (hd : ((d : ℚ) : WithTop ℚ) = s.dist u) :
    Inv adj banned start { s with pq := s.pq.erase (d, u) }
        (if u ∈ σ then σ else u :: σ) ∧
      u ∈ (if u ∈ σ then σ else u :: σ) ∧
      (∀ v ∈ (if u ∈ σ then σ else u :: σ), ∀ dv : ℚ,
        s.dist v = ((dv : ℚ) : WithTop ℚ) → dv ≤ d) := by
  have hsettled_le_d : ∀ v ∈ σ, ∀ dv : ℚ,
      s.dist v = ((dv : ℚ) : WithTop ℚ) → dv ≤ d := by
    intro v hv dv hdv
    obtain ⟨dv2, hdv2, hle⟩ := hInv.settled_le v hv
    obtain rfl : dv2 = dv := by
      rw [hdv] at hdv2
      exact_mod_cast hdv2.symm
    exact hle (d, u) hmem
  by_cases huσ : u ∈ σ
  · rw [if_pos huσ]
    exact ⟨inv_pq_erase hInv (d, u), huσ, hsettled_le_d⟩
  · rw [if_neg huσ]
    refine ⟨⟨hInv.dist_start, hInv.prev_none, ?_, hInv.dist_nonneg, ?_, ?_, ?_, ?_⟩,
      List.mem_cons_self _ _, ?_⟩
    · intro e he
      exact hInv.pq_nonneg e (List.mem_of_mem_erase he)
    · intro v u2 hprev
      obtain ⟨hu2σ, hrest⟩ := hInv.prev_edge v u2 hprev
      exact ⟨List.mem_cons_of_mem _ hu2σ, hrest⟩
    · intro v hv
      rcases List.mem_cons.mp hv with rfl | hv
      · refine ⟨d, hd.symm, ?_⟩
        intro e he
        exact hmin e (List.mem_of_mem_erase he)
      · obtain ⟨dv, hdv, hle⟩ := hInv.settled_le v hv
        exact ⟨dv, hdv, fun e he => hle e (List.mem_of_mem_erase he)⟩
    · intro v u2 hprev hvσ
      rcases List.mem_cons.mp hvσ with rfl | hvσ
      · obtain ⟨hu2σ, -⟩ := hInv.prev_edge v u2 hprev
        exact ⟨[], σ, rfl, hu2σ⟩
      · obtain ⟨l1, l2, heq, hu2l2⟩ := hInv.prev_order v u2 hprev hvσ
        exact ⟨u :: l1, l2, by rw [heq]; rfl, hu2l2⟩
    · rw [List.nodup_cons]
      exact ⟨huσ, hInv.nodup⟩
    · intro v hv dv hdv
      rcases List.mem_cons.mp hv with rfl | hv
      · have : ((dv : ℚ) : WithTop ℚ) = ((d : ℚ) : WithTop ℚ) := by
          rw [← hdv, hd]
        exact le_of_eq (by exact_mod_cast this)
      · exact hsettled_le_d v hv dv hdv

theorem loop_inv (adj : Adjacency) (banned : List Vtx) (goal start : Vtx)
    (Hw : ∀ pr ∈ adj, ∀ e ∈ pr.2, 0 ≤ e.2) :
    ∀ (fuel : ℕ) (s : St) (σ : List Vtx) (s2 : St),
      Inv adj banned start s σ →
      loop adj banned goal fuel s = some s2 →
      ∃ σ2, Inv adj banned start s2 σ2 ∧ σ2.length ≤ σ.length + fuel := by
  intro fuel
  induction fuel with
  | zero => intro s σ s2 _ h; cases h
  | succ n ih =>
    intro s σ s2 hInv h
    rw [loop] at h
    cases hpop : heapPop s.pq with
    | none =>
      rw [hpop] at h
      obtain rfl : s = s2 := by simpa using h
      exact ⟨σ, hInv, by omega⟩
    | some md =>
      obtain ⟨⟨d, u⟩, pq1⟩ := md
      rw [hpop] at h
      obtain ⟨hmem, hpq1, hmin⟩ := heapPop_spec hpop
      subst hpq1
      dsimp only at h
      split at h
      · have hInv2 := inv_pq_erase hInv (d, u)
        obtain ⟨σ2, h1, h2⟩ := ih _ _ _ hInv2 h
        exact ⟨σ2, h1, by omega⟩
      · next hcond =>
        push_neg at hcond
        obtain ⟨hstale, hban⟩ := hcond
        obtain ⟨hsettle, huσ2, hbound⟩ := inv_settle hInv hmem hmin hstale
        split at h
        · obtain rfl : { s with pq := s.pq.erase (d, u) } = s2 := by simpa using h
          refine ⟨if u ∈ σ then σ else u :: σ, hsettle, ?_⟩
          split <;> simp
        · have hd0 : 0 ≤ d := hInv.pq_nonneg (d, u) hmem
          have hrel := relaxList_inv (lookupAdj adj u)
            { s with pq := s.pq.erase (d, u) }
            (fun e he => ⟨he, weights_nonneg_of adj Hw u e he⟩)
            hsettle huσ2 (by simpa using hstale.symm) hbound hd0
          obtain ⟨σ2, h1, h2⟩ := ih _ _ _ hrel h
          refine ⟨σ2, h1, ?_⟩
          have : (if u ∈ σ then σ else u :: σ).length ≤ σ.length + 1 := by
            split <;> simp
          omega

theorem nodup_split_unique {v : Vtx} : ∀ (l1 l2 m1 m2 : List Vtx),
    (l1 ++ v :: l2).Nodup → l1 ++ v :: l2 = m1 ++ v :: m2 → l2 = m2 := by
  intro l1
  induction l1 with
  | nil =>
    intro l2 m1 m2 hnd heq
    simp only [List.nil_append] at hnd heq
    cases m1 with
    | nil => simpa using heq
    | cons y m1 =>
      simp only [List.cons_append, List.cons.injEq] at heq
      obtain ⟨rfl, heq2⟩ := heq
      rw [List.nodup_cons] at hnd
      exact absurd (by rw [heq2]; simp) hnd.1
  | cons x l1 ih =>
    intro l2 m1 m2 hnd heq
    simp only [List.cons_append] at hnd heq
    rw [List.nodup_cons] at hnd
    cases m1 with
    | nil =>
      simp only [List.nil_append, List.cons.injEq] at heq
      obtain ⟨rfl, heq2⟩ := heq
      exact absurd (by simp : x ∈ l1 ++ x :: l2) hnd.1
    | cons y m1 =>
      simp only [List.cons_append, List.cons.injEq] at heq
      exact ih l2 m1 m2 hnd.2 heq.2

theorem chainTo_mono (prev : Vtx → Option Vtx) :
    ∀ (n m : ℕ) (v : Vtx) (c : List Vtx), n ≤ m →
      chainTo prev n v = some c → chainTo prev m v = some c := by
  intro n
  induction n with
  | zero => intro m v c _ h; cases h
  | succ k ih =>
    intro m v c hnm h
    obtain ⟨m2, rfl⟩ : ∃ m2, m = m2 + 1 := ⟨m - 1, by omega⟩
    cases hp : prev v with
    | none =>
      rw [chainTo, hp] at h
      rw [chainTo, hp]
      exact h
    | some p =>
      rw [chainTo, hp] at h
      rw [chainTo, hp]
      dsimp only at h ⊢
      obtain ⟨cp, hcp, rfl⟩ := Option.map_eq_some'.mp h
      rw [ih m2 p cp (by omega) hcp]
      rfl

theorem chain_single {adj : Adjacency} {banned : List Vtx} {start : Vtx}
    {s : St} {σ : List Vtx} (hInv : Inv adj banned start s σ)
    {v : Vtx} {dv : ℚ} (hprev : s.prev v = none)
    (hdv : s.dist v = ((dv : ℚ) : WithTop ℚ)) (m : ℕ) :
    ∃ c, chainTo s.prev (m + 1) v = some c ∧ RevPathCost adj c dv ∧
      c.head? = some v ∧ c.getLast? = some start ∧ c.length ≤ m + 1 := by
  have hvstart : v = start :=
    hInv.prev_none v hprev (by rw [hdv]; exact WithTop.coe_ne_top)
  have hdv0 : dv = 0 := by
    have hds := hInv.dist_start
    rw [← hvstart, hdv] at hds
    exact_mod_cast hds
  refine ⟨[v], ?_, ?_, rfl, ?_, ?_⟩
  · simp [chainTo, hprev]
  · show RevPathCost adj [v] dv
    simp [RevPathCost, hdv0]
  · simp [hvstart]
  · simp

theorem chain_exists (adj : Adjacency) (banned : List Vtx) (start : Vtx)
    {s : St} {σ : List Vtx} (hInv : Inv adj banned start s σ) :
    ∀ (n : ℕ) (v : Vtx) (l1 l2 : List Vtx), σ = l1 ++ v :: l2 →
      l2.length ≤ n → ∀ dv : ℚ, s.dist v = ((dv : ℚ) : WithTop ℚ) →
      ∃ c, chainTo s.prev (l2.length + 1) v = some c ∧ RevPathCost adj c dv ∧
        c.head? = some v ∧ c.getLast? = some start ∧ c.length ≤ l2.length + 1 := by
  intro n
  induction n with
  | zero =>
    intro v l1 l2 heq hlen dv hdv
    have hl2 : l2 = [] := List.length_eq_zero.mp (Nat.le_zero.mp hlen)
    subst hl2
    cases hprev : s.prev v with
    | none => exact chain_single hInv hprev hdv 0
    | some u =>
      have hvσ : v ∈ σ := by rw [heq]; simp
      obtain ⟨m1, m2, heqm, hum2⟩ := hInv.prev_order v u hprev hvσ
      have hm2 : ([] : List Vtx) = m2 :=
        nodup_split_unique l1 [] m1 m2 (heq ▸ hInv.nodup) (heq ▸ heqm)
      rw [← hm2] at hum2
      cases hum2
  | succ n ih =>
    intro v l1 l2 heq hlen dv hdv
    cases hprev : s.prev v with
    | none => exact chain_single hInv hprev hdv l2.length
    | some u =>
      obtain ⟨huσ, w, du, hedge, hdu, hdv2⟩ := hInv.prev_edge v u hprev
      have hvσ : v ∈ σ := by rw [heq]; simp
      obtain ⟨m1, m2, heqm, hum2⟩ := hInv.prev_order v u hprev hvσ
      have hm2 : l2 = m2 :=
        nodup_split_unique l1 l2 m1 m2 (heq ▸ hInv.nodup) (heq ▸ heqm)
      rw [← hm2] at hum2
      obtain ⟨a, b, rfl⟩ := List.append_of_mem hum2
      have hdveq : dv = du + w := by
        rw [hdv] at hdv2
        exact_mod_cast hdv2
      have hblen : b.length ≤ n := by
        simp only [List.length_append, List.length_cons] at hlen
        omega
      obtain ⟨cu, hchain, hcost, hhead, hlast, hclen⟩ :=
        ih u (l1 ++ v :: a) b (by rw [heq]; simp) hblen du hdu
      have hk : b.length + 1 ≤ (a ++ u :: b).length := by
        simp [List.length_append]
      have hcu2 := chainTo_mono s.prev _ _ u cu hk hchain
      refine ⟨v :: cu, ?_, ?_, rfl, ?_, ?_⟩
      · rw [chainTo, hprev]
        dsimp only
        rw [hcu2]
        rfl
      · cases cu with
        | nil => simp at hhead
        | cons u2 rest =>
          obtain rfl : u2 = u := by simpa using hhead
          show RevPathCost adj (v :: u2 :: rest) dv
          exact ⟨w, du, hedge, hcost, by rw [hdveq]⟩
      · cases cu with
        | nil => simp at hhead
        | cons u2 rest =>
          rw [List.getLast?_cons_cons]
          exact hlast
      · simp only [List.length_append, List.length_cons] at hclen ⊢
        omega

theorem chain_exists_root (adj : Adjacency) (banned : List Vtx) (start : Vtx)
    {s : St} {σ : List Vtx} (hInv : Inv adj banned start s σ)
    (v : Vtx) (dv : ℚ) (hdv : s.dist v = ((dv : ℚ) : WithTop ℚ)) :
    ∃ c, chainTo s.prev (σ.length + 1) v = some c ∧ RevPathCost adj c dv ∧
      c.head? = some v ∧ c.getLast? = some start ∧ c.length ≤ σ.length + 1 := by
  cases hprev : s.prev v with
  | none => exact chain_single hInv hprev hdv σ.length
  | some u =>
    obtain ⟨huσ, w, du, hedge, hdu, hdv2⟩ := hInv.prev_edge v u hprev
    obtain ⟨l1, l2, heq⟩ := List.append_of_mem huσ
    obtain ⟨cu, hchain, hcost, hhead, hlast, hclen⟩ :=
      chain_exists adj banned start hInv l2.length u l1 l2 heq (le_refl _) du hdu
    have hdveq : dv = du + w := by
      rw [hdv] at hdv2
      exact_mod_cast hdv2
    have hk : l2.length + 1 ≤ σ.length := by
      rw [heq]
      simp [List.length_append]
    have hcu2 := chainTo_mono s.prev _ _ u cu hk hchain
    refine ⟨v :: cu, ?_, ?_, rfl, ?_, ?_⟩
    · rw [chainTo, hprev]
      dsimp only
      rw [hcu2]
      rfl
    · cases cu with
      | nil => simp at hhead
      | cons u2 rest =>
        obtain rfl : u2 = u := by simpa using hhead
        show RevPathCost adj (v :: u2 :: rest) dv
        exact ⟨w, du, hedge, hcost, by rw [hdveq]⟩
    · cases cu with
      | nil => simp at hhead
      | cons u2 rest =>
        rw [List.getLast?_cons_cons]
        exact hlast
    · simp only [List.length_cons]
      omega

theorem pathCost_append_edge (adj : Adjacency) :
    ∀ (l : List Vtx) (c2 : ℚ) (u v : Vtx) (w : ℚ),
      PathCost adj l c2 → l.getLast? = some u → (v, w) ∈ lookupAdj adj u →
      PathCost adj (l ++ [v]) (c2 + w) := by
  intro l
  induction l with
  | nil => intro c2 u v w h _ _; cases h
  | cons x t ih =>
    intro c2 u v w h hlast hedge
    cases t with
    | nil =>
      obtain rfl : x = u := by simpa using hlast
      obtain rfl : c2 = 0 := h
      show PathCost adj (x :: v :: []) (0 + w)
      exact ⟨w, 0, hedge, rfl, by rw [zero_add, add_zero]⟩
    | cons y t2 =>
      obtain ⟨w1, c1, hedge1, hrest, rfl⟩ := h
      rw [List.getLast?_cons_cons] at hlast
      have hrec := ih c1 u v w hrest hlast hedge
      exact ⟨w1, c1 + w, hedge1, hrec, by rw [add_assoc]⟩

theorem revPathCost_toPathCost (adj : Adjacency) :
    ∀ (l : List Vtx) (c : ℚ),
      RevPathCost adj l c → PathCost adj l.reverse c := by
  intro l
  induction l with
  | nil => intro c h; cases h
  | cons v t ih =>
    intro c h
    cases t with
    | nil =>
      obtain rfl : c = 0 := h
      rw [show ([v] : List Vtx).reverse = [v] from rfl]
      exact rfl
    | cons u rest =>
      obtain ⟨w, c2, hedge, hrest, rfl⟩ := h
      have hrec := ih c2 hrest
      have hlast : (u :: rest).reverse.getLast? = some u := by
        rw [List.getLast?_reverse]
        rfl
      have happ := pathCost_append_edge adj _ c2 u v w hrec hlast hedge
      rw [List.reverse_cons]
      exact happ

end SP

/-- C5: if the start or the goal vertex is banned, or either of them is
absent from the graph's key set, `dijkstra` immediately returns
`(inf, [])` — a normal result, not an error — for every fuel (the loop is
never entered). -/
theorem dijkstra_banned_or_absent (adj : Adjacency) (start goal : Vtx)
    (banned : List Vtx) (fuel : ℕ)
    (h : start ∈ banned ∨ goal ∈ banned ∨
      start ∉ adjKeys adj ∨ goal ∉ adjKeys adj) :
    SP.dijkstra adj start goal banned fuel = some (⊤, []) := by
  unfold SP.dijkstra
  by_cases h1 : start ∈ banned ∨ goal ∈ banned
  · rw [if_pos h1]
  · rw [if_neg h1, if_pos (by tauto)]

/-- Witness for the C5 theorem: banning the start vertex on a concrete
graph yields `(inf, [])`. -/
theorem dijkstra_banned_or_absent_witness :
    SP.dijkstra [(0, [(1, 2)]), (1, [])] 0 1 [0] 7 = some (⊤, []) :=
  dijkstra_banned_or_absent [(0, [(1, 2)]), (1, [])] 0 1 [0] 7
    (Or.inl (by decide))

/-- C1: for every adjacency graph with nonnegative weights (and every
neighbor a key of the graph, as `build_graph` guarantees — the condition
under which the total-function model of the `dist` dict is faithful),
every completed run of `dijkstra` returns a nonnegative cost, and whenever
the returned vertex sequence is nonempty it leads from start to goal and
the cost is finite and equals the sum of the edge weights along it. -/
theorem dijkstra_cost_path (adj : Adjacency) (start goal : Vtx)
    (banned : List Vtx) (fuel : ℕ) (c : WithTop ℚ) (p : List Vtx)
    (Hw : ∀ pr ∈ adj, ∀ e ∈ pr.2, 0 ≤ e.2)
    (_Hclosed : ∀ pr ∈ adj, ∀ e ∈ pr.2, e.1 ∈ adjKeys adj)
    (h : SP.dijkstra adj start goal banned fuel = some (c, p)) :
    0 ≤ c ∧
      (p ≠ [] → p.head? = some start ∧ p.getLast? = some goal ∧
        ∃ r : ℚ, c = ((r : ℚ) : WithTop ℚ) ∧ SP.PathCost adj p r) := by
  unfold SP.dijkstra at h
  split_ifs at h with h1 h2
  · obtain ⟨rfl, rfl⟩ : ⊤ = c ∧ ([] : List Vtx) = p := by simpa using h
    exact ⟨le_top, fun hne => absurd rfl hne⟩
  · obtain ⟨rfl, rfl⟩ : ⊤ = c ∧ ([] : List Vtx) = p := by simpa using h
    exact ⟨le_top, fun hne => absurd rfl hne⟩
  · cases hloop : SP.loop adj banned goal fuel
        { dist := fun v => if v = start then ((0 : ℚ) : WithTop ℚ) else ⊤
          prev := fun _ => none
          pq := [(0, start)] } with
    | none => rw [hloop] at h; cases h
    | some s =>
      rw [hloop] at h
      dsimp only at h
      obtain ⟨σ, hInv, hlen⟩ := SP.loop_inv adj banned goal start Hw fuel _ [] s
        (SP.inv_init adj banned start) hloop
      by_cases hgoal : s.dist goal = ⊤
      · rw [if_pos hgoal] at h
        obtain ⟨rfl, rfl⟩ : ⊤ = c ∧ ([] : List Vtx) = p := by simpa using h
        exact ⟨le_top, fun hne => absurd rfl hne⟩
      · rw [if_neg hgoal] at h
        obtain ⟨dg, hdg⟩ : ∃ dg : ℚ, s.dist goal = ((dg : ℚ) : WithTop ℚ) := by
          cases hsd : s.dist goal with
          | top => exact absurd hsd hgoal
          | coe dg => exact ⟨dg, rfl⟩
        obtain ⟨ch, hchain, hcost, hhead, hlast, hclen⟩ :=
          SP.chain_exists_root adj banned start hInv goal dg hdg
        have hchain2 : SP.chainTo s.prev (fuel + 1) goal = some ch :=
          SP.chainTo_mono s.prev _ _ goal ch
            (by simp only [List.length_nil] at hlen; omega) hchain
        rw [hchain2] at h
        obtain ⟨hc, rfl⟩ : s.dist goal = c ∧ ch.reverse = p := by simpa using h
        constructor
        · rw [← hc]
          exact hInv.dist_nonneg goal
        · intro _
          refine ⟨?_, ?_, dg, ?_, ?_⟩
          · rw [List.head?_reverse]
            exact hlast
          · rw [List.getLast?_reverse]
            exact hhead
          · rw [← hc, hdg]
          · exact SP.revPathCost_toPathCost adj ch dg hcost

/-- Witness for the C1 theorem: a two-vertex graph with one zero-weight
edge; the run returns cost 0 with path `[0, 1]` and the theorem applies. -/
theorem dijkstra_cost_path_witness :
    0 ≤ ((0 : ℚ) : WithTop ℚ) ∧
      (([0, 1] : List Vtx) ≠ [] → ([0, 1] : List Vtx).head? = some 0 ∧
        ([0, 1] : List Vtx).getLast? = some 1 ∧
        ∃ r : ℚ, ((0 : ℚ) : WithTop ℚ) = ((r : ℚ) : WithTop ℚ) ∧
          SP.PathCost [(0, [(1, 0)]), (1, [])] [0, 1] r) := by
  have h : SP.dijkstra [(0, [(1, 0)]), (1, [])] 0 1 [] 4 =
      some (((0 : ℚ) : WithTop ℚ), [0, 1]) := by
    norm_num [SP.dijkstra, SP.loop, SP.heapPop, SP.pqMin, SP.lexMin2,
      SP.relaxAll, SP.relaxEdge, SP.chainTo, lookupAdj, List.lookup, adjKeys,
      Function.update, List.erase]
  exact dijkstra_cost_path [(0, [(1, 0)]), (1, [])] 0 1 [] 4 _ _
    (by decide) (by decide) h
